import Mathlib

/-!
Shallow embedding of `js/src/wasm/WasmGenerator.cpp`, the wasm module
generator: the data model (`CompiledCode`, code ranges, call sites, far
jumps), the linker (`ModuleGenerator::linkCompiledCode`), the call-site
patcher (`ModuleGenerator::linkCallSites`), the per-kind side-effect sink
(`ModuleGenerator::noteCodeRange`), `finishLinking`'s far-jump patching,
`finishFuncExports`, the batching decision of `compileFuncDef`, the worker
failure recording of `ExecuteCompileTaskFromHelperThread`, and
`allocateGlobalBytes`.

Modelling conventions:
* `uint32_t` values are `Nat`; `mozilla::CheckedInt` validity checks are
  explicit `≤ UINT32_MAX` comparisons at the same program points.
* The MacroAssembler is modelled through its observable interface: a buffer
  length `msize` standing for `masm.size()` / `masm.currentOffset()`,
  recorded `patchCall` and `patchFarJump` requests (lists of
  (patch-at, target) pairs), and configurable byte counts for the code
  emitted by `farJumpWithPatch()` and `loadPtr(...)`.  `farJumpWithPatch()`
  returns the offset at which it starts emitting.
* `MOZ_ASSERT` / `MOZ_CRASH` conditions are modelled by the separate
  decidable predicate `noteCodeRangeOk`; the state transformers themselves
  are total and perform exactly the writes the C++ performs.
* Fallible vector growth (OOM) is not modelled: the claims under study are
  about the successful paths, and every `return false` path in the C++
  performs no state writes relevant to them.
* The flat `GenState` gathers the fields of `ModuleGenerator`,
  `MetadataTier` (`codeRanges`, `callSites`, `memoryAccesses`,
  `funcExports`, `funcImports`, `debugTrapFarJumpOffsets`) and
  `LinkDataTier` (`internalLinks`, `symbolicLinks`, the three sentinel
  offsets).
-/

namespace WasmGenerator

/-- `CodeRange::Kind` from the wasm type definitions. -/
inductive CodeRangeKind where
  | Function
  | Entry
  | ImportJitExit
  | ImportInterpExit
  | TrapExit
  | DebugTrap
  | OutOfBoundsExit
  | UnalignedExit
  | Interrupt
  | Throw
  | FarJumpIsland
  | BuiltinThunk
deriving DecidableEq

/-- `CallSiteDesc::Kind`. -/
inductive CallSiteKind where
  | Func
  | Dynamic
  | Symbolic
  | TrapExit
  | Breakpoint
  | EnterFrame
  | LeaveFrame
deriving DecidableEq

/-- Compilation tier (`Tier::Baseline`, `Tier::Ion`). -/
inductive Tier where
  | Baseline
  | Ion
deriving DecidableEq

/-- `CodeRange`: a `[begin_, end_)` interval of the code buffer tagged with a
kind; `funcIndex` and `trap` model the C++ union payload (each is read only
for the kinds that carry it). -/
structure CodeRange where
  kind : CodeRangeKind
  begin_ : Nat
  end_ : Nat
  funcIndex : Nat
  trap : Nat
deriving DecidableEq

/-- `CodeRange::offsetBy`: shift the interval. -/
def CodeRange.offsetBy (offset : Nat) (r : CodeRange) : CodeRange :=
  { r with begin_ := r.begin_ + offset, end_ := r.end_ + offset }

/-- `CallSite`: a return-address offset plus the call kind. -/
structure CallSite where
  returnAddressOffset : Nat
  kind : CallSiteKind
deriving DecidableEq

/-- `CallSite::offsetBy`. -/
def CallSite.offsetBy (offset : Nat) (cs : CallSite) : CallSite :=
  { cs with returnAddressOffset := cs.returnAddressOffset + offset }

/-- `CallSiteTarget`: packed payload, a function index for `Func` call sites
and a trap id for `TrapExit` call sites (a `uint32_t` union in the C++). -/
structure CallSiteTarget where
  index : Nat
deriving DecidableEq

/-- An entry of `trapFarJumps_`: trap id plus the far jump's patch offset. -/
structure TrapFarJump where
  trap : Nat
  jump : Nat
deriving DecidableEq

/-- `TrapFarJump::offsetBy`. -/
def TrapFarJump.offsetBy (offset : Nat) (t : TrapFarJump) : TrapFarJump :=
  { t with jump := t.jump + offset }

/-- An entry of `callFarJumps_`: callee function index plus the far jump's
patch offset. -/
structure CallFarJump where
  funcIndex : Nat
  jump : Nat
deriving DecidableEq

/-- `CallFarJump::offsetBy`. -/
def CallFarJump.offsetBy (offset : Nat) (c : CallFarJump) : CallFarJump :=
  { c with jump := c.jump + offset }

/-- `SymbolicAccess{patchAt, target}`; `target` names a runtime symbol. -/
structure SymbolicAccess where
  patchAt : Nat
  target : Nat
deriving DecidableEq

/-- `CodeLabel{patchAt, target}`; both are offsets in the same buffer. -/
structure CodeLabel where
  patchAt : Nat
  target : Nat
deriving DecidableEq

/-- A `FuncExport` of `MetadataTier`: function index plus the entry-stub
offset filled in by `noteCodeRange` for `Entry` code ranges. -/
structure FuncExport where
  funcIndex : Nat
  entryOffset : Nat
deriving DecidableEq

/-- A `FuncImport` of `MetadataTier`. -/
structure FuncImport where
  globalDataOffset : Nat
  interpExitOffset : Nat
  jitExitOffset : Nat
deriving DecidableEq

/-- `CompiledCode`: output of one compilation task.  All offsets inside are
task-local; `bytesLength` is `bytes.length()` (the byte contents never
matter to the generator's bookkeeping).  `trapSites` is omitted: the
generator asserts it empty (`MOZ_ASSERT(code.trapSites.empty())`). -/
structure CompiledCode where
  bytesLength : Nat
  codeRanges : List CodeRange
  callSites : List CallSite
  callSiteTargets : List CallSiteTarget
  trapFarJumps : List TrapFarJump
  callFarJumps : List CallFarJump
  memoryAccesses : List Nat
  symbolicAccesses : List SymbolicAccess
  codeLabels : List CodeLabel

/-- Machine/runtime parameters the generator consults: ISA constants,
`JitOptions` thresholds, and the byte counts of the assembler's emission
primitives. -/
structure Config where
  codeAlignment : Nat
  jumpThreshold : Nat
  jumpImmediateRange : Nat
  farJumpSize : Nat
  loadPtrSize : Nat
  funcNormalEntryOffset : Nat
  wasmBatchBaselineThreshold : Nat
  wasmBatchIonThreshold : Nat

/-- `BAD_CODE_RANGE = UINT32_MAX`, the "not compiled" marker in
`funcToCodeRange_`. -/
def BAD_CODE_RANGE : Nat := 2 ^ 32 - 1

/-- `UINT32_MAX`, the `CheckedInt<uint32_t>` validity bound. -/
def UINT32_MAX : Nat := 2 ^ 32 - 1

/-- Round `n` up to a multiple of `a` (the effect of
`masm.haltingAlign(a)` on the buffer size). -/
def alignUp (n a : Nat) : Nat :=
  if a = 0 then n else (n + a - 1) / a * a

/-- `ComputeByteAlignment(bytes, alignment)`: how many padding bytes bring
`bytes` up to the alignment. -/
def ComputeByteAlignment (bytes alignment : Nat) : Nat :=
  (alignment - bytes % alignment) % alignment

/-- `List.modify` at an index (used for `funcImports[i]` updates). -/
def modifyAt {α : Type _} : List α → Nat → (α → α) → List α
  | [], _, _ => []
  | x :: xs, 0, f => f x :: xs
  | x :: xs, Nat.succ n, f => x :: modifyAt xs n f

/-- The generator state: the fields of `ModuleGenerator` together with the
`MetadataTier` and `LinkDataTier` it owns, plus the observable assembler
state (`msize` = buffer length, `patches` = recorded `patchCall`s,
`farPatches` = recorded `patchFarJump`s). -/
structure GenState where
  msize : Nat
  codeRanges : List CodeRange
  callSites : List CallSite
  memoryAccesses : List Nat
  funcExports : List FuncExport
  funcImports : List FuncImport
  debugTrapFarJumpOffsets : List Nat
  callSiteTargets : List CallSiteTarget
  trapFarJumps : List TrapFarJump
  callFarJumps : List CallFarJump
  debugTrapFarJumps : List Nat
  funcToCodeRange : List Nat
  trapCodeOffsets : Nat → Nat
  debugTrapCodeOffset : Nat
  outOfBoundsOffset : Nat
  unalignedAccessOffset : Nat
  interruptOffset : Nat
  internalLinks : List (Nat × Nat)
  symbolicLinks : List (Nat × Nat)
  lastPatchedCallSite : Nat
  patches : List (Nat × Nat)
  farPatches : List (Nat × Nat)

/-- A generator state with nothing recorded (all offsets unset, following
the constructor, which zero-fills `trapCodeOffsets_`). -/
def emptyGen : GenState where
  msize := 0
  codeRanges := []
  callSites := []
  memoryAccesses := []
  funcExports := []
  funcImports := []
  debugTrapFarJumpOffsets := []
  callSiteTargets := []
  trapFarJumps := []
  callFarJumps := []
  debugTrapFarJumps := []
  funcToCodeRange := []
  trapCodeOffsets := fun _ => 0
  debugTrapCodeOffset := 0
  outOfBoundsOffset := 0
  unalignedAccessOffset := 0
  interruptOffset := 0
  internalLinks := []
  symbolicLinks := []
  lastPatchedCallSite := 0
  patches := []
  farPatches := []

/-- `ModuleGenerator::funcIsCompiled`. -/
def funcIsCompiled (s : GenState) (funcIndex : Nat) : Bool :=
  s.funcToCodeRange.getD funcIndex BAD_CODE_RANGE != BAD_CODE_RANGE

/-- Default code range for total `getD` lookups. -/
def dfltCodeRange : CodeRange :=
  { kind := .Function, begin_ := 0, end_ := 0, funcIndex := 0, trap := 0 }

/-- `ModuleGenerator::funcCodeRange` (total model of
`metadataTier_->codeRanges[funcToCodeRange_[funcIndex]]`). -/
def funcCodeRange (s : GenState) (funcIndex : Nat) : CodeRange :=
  s.codeRanges.getD (s.funcToCodeRange.getD funcIndex BAD_CODE_RANGE) dfltCodeRange

/-- `CodeRange::funcNormalEntry()`: the function's normal entry lies a fixed
(prologue) distance past `begin_`. -/
def funcNormalEntry (cfg : Config) (r : CodeRange) : Nat :=
  r.begin_ + cfg.funcNormalEntryOffset

/-- `Min(JitOptions.jumpThreshold, JumpImmediateRange)` from `InRange`. -/
def branchRange (cfg : Config) : Nat :=
  min cfg.jumpThreshold cfg.jumpImmediateRange

/-- `InRange(caller, callee)` (file-static helper). -/
def InRange (cfg : Config) (caller callee : Nat) : Bool :=
  if caller < callee then decide (callee - caller < branchRange cfg)
  else decide (caller - callee < branchRange cfg)

/-- `ModuleGenerator::noteCodeRange(codeRangeIndex, codeRange)`: the
per-kind side effects.  The `MOZ_ASSERT`/`MOZ_CRASH` guards are the
separate predicate `noteCodeRangeOk`. -/
def noteCodeRange (s : GenState) (codeRangeIndex : Nat) (codeRange : CodeRange) :
    GenState :=
  match codeRange.kind with
  | .Function =>
    { s with funcToCodeRange := s.funcToCodeRange.set codeRange.funcIndex codeRangeIndex }
  | .Entry =>
    { s with funcExports := s.funcExports.map fun fe =>
        if fe.funcIndex = codeRange.funcIndex then
          { fe with entryOffset := codeRange.begin_ }
        else fe }
  | .ImportJitExit =>
    let upd := fun fi => { fi with jitExitOffset := codeRange.begin_ }
    { s with funcImports := modifyAt s.funcImports codeRange.funcIndex upd }
  | .ImportInterpExit =>
    let upd := fun fi => { fi with interpExitOffset := codeRange.begin_ }
    { s with funcImports := modifyAt s.funcImports codeRange.funcIndex upd }
  | .TrapExit =>
    { s with trapCodeOffsets := fun t =>
        if t = codeRange.trap then codeRange.begin_ else s.trapCodeOffsets t }
  | .DebugTrap => { s with debugTrapCodeOffset := codeRange.begin_ }
  | .OutOfBoundsExit => { s with outOfBoundsOffset := codeRange.begin_ }
  | .UnalignedExit => { s with unalignedAccessOffset := codeRange.begin_ }
  | .Interrupt => { s with interruptOffset := codeRange.begin_ }
  | .Throw => s
  | .FarJumpIsland => s
  | .BuiltinThunk => s

/-- The `MOZ_ASSERT` (and, for the last two kinds, `MOZ_CRASH`) guards of
`noteCodeRange`: true exactly when the call hits no assertion.  An offset of
`0` is the C++ "unset" sentinel. -/
def noteCodeRangeOk (s : GenState) (codeRange : CodeRange) : Bool :=
  match codeRange.kind with
  | .Function => s.funcToCodeRange.getD codeRange.funcIndex BAD_CODE_RANGE == BAD_CODE_RANGE
  | .TrapExit => s.trapCodeOffsets codeRange.trap == 0
  | .DebugTrap => s.debugTrapCodeOffset == 0
  | .OutOfBoundsExit => s.outOfBoundsOffset == 0
  | .UnalignedExit => s.unalignedAccessOffset == 0
  | .Interrupt => s.interruptOffset == 0
  | .FarJumpIsland => false
  | .BuiltinThunk => false
  | _ => true

/-- Fold `noteCodeRange` over a sequence of code ranges, with consecutive
code-range indices starting at `i`. -/
def noteAll (s : GenState) (i : Nat) : List CodeRange → GenState
  | [] => s
  | r :: rest => noteAll (noteCodeRange s i r) (i + 1) rest

/-- All `noteCodeRange` assertion guards along a `noteAll` run. -/
def noteAllOk (s : GenState) (i : Nat) : List CodeRange → Bool
  | [] => true
  | r :: rest => noteCodeRangeOk s r && noteAllOk (noteCodeRange s i r) (i + 1) rest

/-- The code-range part of `linkCompiledCode`'s `AppendForEach`: each source
range is shifted by `offsetInModule`, `noteCodeRange` runs at its
destination index, and the shifted range is appended to
`metadataTier_->codeRanges`. -/
def linkCodeRanges (offsetInModule : Nat) (s : GenState) : List CodeRange → GenState
  | [] => s
  | r :: rest =>
    let shifted := CodeRange.offsetBy offsetInModule r
    let s1 := noteCodeRange s s.codeRanges.length shifted
    let s2 := { s1 with codeRanges := s1.codeRanges ++ [shifted] }
    linkCodeRanges offsetInModule s2 rest

/-- `ModuleGenerator::linkCompiledCode`: align the buffer, capture the
append offset, append the raw bytes, then rebase-and-append every
side-table of the task's `CompiledCode`. -/
def linkCompiledCode (cfg : Config) (s : GenState) (code : CompiledCode) : GenState :=
  let s1 := { s with msize := alignUp s.msize cfg.codeAlignment }
  let offsetInModule := s1.msize
  let s2 := { s1 with msize := s1.msize + code.bytesLength }
  let s3 := linkCodeRanges offsetInModule s2 code.codeRanges
  { s3 with
    callSites := s3.callSites ++ code.callSites.map (CallSite.offsetBy offsetInModule),
    callSiteTargets := s3.callSiteTargets ++ code.callSiteTargets,
    trapFarJumps := s3.trapFarJumps ++ code.trapFarJumps.map (TrapFarJump.offsetBy offsetInModule),
    callFarJumps := s3.callFarJumps ++ code.callFarJumps.map (CallFarJump.offsetBy offsetInModule),
    memoryAccesses := s3.memoryAccesses ++ code.memoryAccesses.map (· + offsetInModule),
    symbolicLinks := s3.symbolicLinks ++
      code.symbolicAccesses.map (fun a => (a.target, offsetInModule + a.patchAt)),
    internalLinks := s3.internalLinks ++
      code.codeLabels.map (fun l => (offsetInModule + l.patchAt, offsetInModule + l.target)) }

/-- `masm.patchCall(callerOffset, calleeOffset)`: record the patch. -/
def patchCall (g : GenState) (callerOffset calleeOffset : Nat) : GenState :=
  { g with patches := g.patches ++ [(callerOffset, calleeOffset)] }

/-- A `FarJumpIsland` code range over `[b, e)`. -/
def mkIslandRange (b e : Nat) : CodeRange :=
  { kind := .FarJumpIsland, begin_ := b, end_ := e, funcIndex := 0, trap := 0 }

/-- The state of one `linkCallSites` pass: the generator state plus the
pass-local island caches `existingCallFarJumps` (a map from callee function
index to island entry) and `existingTrapFarJumps` (trap id to island
entry). -/
structure PassState where
  g : GenState
  existingCallFarJumps : List (Nat × Nat)
  existingTrapFarJumps : List (Nat × Nat)

/-- The body of `linkCallSites`' loop for one call site. -/
def linkOneCallSite (cfg : Config) (ps : PassState) (callSite : CallSite)
    (target : CallSiteTarget) : PassState :=
  let callerOffset := callSite.returnAddressOffset
  match callSite.kind with
  | .Dynamic => ps
  | .Symbolic => ps
  | .Func =>
    if funcIsCompiled ps.g target.index &&
        InRange cfg callerOffset (funcNormalEntry cfg (funcCodeRange ps.g target.index)) then
      let entry := funcNormalEntry cfg (funcCodeRange ps.g target.index)
      { ps with g := patchCall ps.g callerOffset entry }
    else
      match ps.existingCallFarJumps.lookup target.index with
      | some entry => { ps with g := patchCall ps.g callerOffset entry }
      | none =>
        let b := ps.g.msize
        let g1 := { ps.g with
          callFarJumps := ps.g.callFarJumps ++ [CallFarJump.mk target.index b],
          msize := ps.g.msize + cfg.farJumpSize }
        let e := g1.msize
        let g2 := { g1 with codeRanges := g1.codeRanges ++ [mkIslandRange b e] }
        { ps with
          g := patchCall g2 callerOffset b,
          existingCallFarJumps := (target.index, b) :: ps.existingCallFarJumps }
  | .TrapExit =>
    match ps.existingTrapFarJumps.lookup target.index with
    | some entry => { ps with g := patchCall ps.g callerOffset entry }
    | none =>
      let b := ps.g.msize
      let g1 := { ps.g with msize := ps.g.msize + cfg.loadPtrSize }
      let jump := g1.msize
      let g2 := { g1 with
        trapFarJumps := g1.trapFarJumps ++ [TrapFarJump.mk target.index jump],
        msize := g1.msize + cfg.farJumpSize }
      let e := g2.msize
      let g3 := { g2 with codeRanges := g2.codeRanges ++ [mkIslandRange b e] }
      { ps with
        g := patchCall g3 callerOffset b,
        existingTrapFarJumps := (target.index, b) :: ps.existingTrapFarJumps }
  | .Breakpoint | .EnterFrame | .LeaveFrame =>
    let needIsland :=
      match ps.g.debugTrapFarJumpOffsets.getLast? with
      | none => true
      | some last => !InRange cfg last callerOffset
    if needIsland then
      let b := ps.g.msize
      let g1 := { ps.g with msize := ps.g.msize + cfg.loadPtrSize }
      let jumpOffset := g1.msize
      let g2 := { g1 with msize := g1.msize + cfg.farJumpSize }
      let e := g2.msize
      let g3 := { g2 with
        codeRanges := g2.codeRanges ++ [mkIslandRange b e],
        debugTrapFarJumps := g2.debugTrapFarJumps ++ [jumpOffset],
        debugTrapFarJumpOffsets := g2.debugTrapFarJumpOffsets ++ [b] }
      { ps with g := g3 }
    else ps

/-- `ModuleGenerator::linkCallSites`: align the buffer, then walk the call
sites from `lastPatchedCallSite_` to the end, patching each and emitting
far-jump islands as needed; the loop itself appends no call sites, so the
walked range is fixed. -/
def linkCallSites (cfg : Config) (s : GenState) : GenState :=
  let s0 := { s with msize := alignUp s.msize cfg.codeAlignment }
  let work := (s0.callSites.zip s0.callSiteTargets).drop s0.lastPatchedCallSite
  let ps := work.foldl (fun ps p => linkOneCallSite cfg ps p.1 p.2) ⟨s0, [], []⟩
  { ps.g with lastPatchedCallSite := s0.callSites.length }

/-- `ModuleGenerator::finishLinking`'s patching work: one final
`linkCallSites` pass, then patch every recorded call far jump to its
callee's normal entry, every trap far jump to the trap's handler offset,
and every debug-trap far jump to the debug-trap entry. -/
def finishLinking (cfg : Config) (s : GenState) : GenState :=
  let s1 := linkCallSites cfg s
  { s1 with farPatches := s1.farPatches ++
      s1.callFarJumps.map (fun far => (far.jump, funcNormalEntry cfg (funcCodeRange s1 far.funcIndex))) ++
      s1.trapFarJumps.map (fun far => (far.jump, s1.trapCodeOffsets far.trap)) ++
      s1.debugTrapFarJumps.map (fun jump => (jump, s1.debugTrapCodeOffset)) }

/-- A table description: only the `external` (import- or export-visible)
flag matters to the generator. -/
structure TableDesc where
  external : Bool
deriving DecidableEq

/-- An element segment: a table index and the function indices that
initialize the table. -/
structure ElemSegment where
  tableIndex : Nat
  elemFuncIndices : List Nat
deriving DecidableEq

/-- A module export declaration; `isFunc` models
`exp.kind() == DefinitionKind::Function`. -/
structure ExportDecl where
  isFunc : Bool
  funcIndex : Nat
deriving DecidableEq

/-- The slice of `ModuleEnvironment` consulted by export finalization. -/
structure ModuleEnv where
  exports : List ExportDecl
  startFuncIndex : Option Nat
  tables : List TableDesc
  elemSegments : List ElemSegment

/-- `exportedFuncs_.put(funcIndex)`: insert into the set (modelled as a
duplicate-free list). -/
def putFunc (exported : List Nat) (funcIndex : Nat) : List Nat :=
  if funcIndex ∈ exported then exported else exported ++ [funcIndex]

/-- The seeding of `exportedFuncs_` done by `initWasm`: explicit function
exports, then the start function if present. -/
def seedExportedFuncs (env : ModuleEnv) : List Nat :=
  let fromExports := env.exports.foldl
    (fun acc e => if e.isFunc then putFunc acc e.funcIndex else acc) []
  match env.startFuncIndex with
  | some f => putFunc fromExports f
  | none => fromExports

/-- The element-segment walk at the top of `finishFuncExports`: every
element of a segment whose table is external joins the set. -/
def addElemSegmentFuncs (env : ModuleEnv) (exported : List Nat) : List Nat :=
  env.elemSegments.foldl
    (fun acc seg =>
      if (env.tables.getD seg.tableIndex ⟨false⟩).external then
        seg.elemFuncIndices.foldl putFunc acc
      else acc)
    exported

/-- `ModuleGenerator::finishFuncExports`: extend the exported set with
external-table elements, sort by function index, and build the
`FuncExport` vector (entry offsets are filled later by `noteCodeRange`). -/
def finishFuncExports (env : ModuleEnv) (exported : List Nat) : List FuncExport :=
  let all := addElemSegmentFuncs env exported
  let sorted := List.insertionSort (· ≤ ·) all
  sorted.map fun funcIndex => { funcIndex := funcIndex, entryOffset := 0 }

/-- The tier's batch threshold selected in `compileFuncDef`. -/
def batchThreshold (cfg : Config) : Tier → Nat
  | .Baseline => cfg.wasmBatchBaselineThreshold
  | .Ion => cfg.wasmBatchIonThreshold

/-- The batching decision at the end of `ModuleGenerator::compileFuncDef`:
add the body's bytecode length to `batchedBytecode_` and launch a batch
compile exactly when the tier's threshold is exceeded
(`return batchedBytecode_ <= threshold || launchBatchCompile()`);
`launchBatchCompile` resets `batchedBytecode_` to 0.  Returns the new
`batchedBytecode_` and whether `launchBatchCompile` was invoked. -/
def compileFuncDefBatch (cfg : Config) (tier : Tier)
    (batchedBytecode funcBytecodeLength : Nat) : Nat × Bool :=
  let newBatched := batchedBytecode + funcBytecodeLength
  if newBatched ≤ batchThreshold cfg tier then (newBatched, false)
  else (0, true)

/-- The shared `CompileTaskState` record (completion list, failure count,
first error message). -/
structure TaskState where
  finished : List Nat
  numFailed : Nat
  errorMessage : Option String
deriving DecidableEq

/-- The completion bookkeeping of `ExecuteCompileTaskFromHelperThread`,
performed under the task-state lock: on success append the task to
`finished`; otherwise bump `numFailed` and store the error message only if
none is stored yet. -/
def executeCompileTaskRecord (ts : TaskState) (task : Nat) (ok appendOk : Bool)
    (error : Option String) : TaskState :=
  if ok && appendOk then { ts with finished := ts.finished ++ [task] }
  else
    { ts with
      numFailed := ts.numFailed + 1,
      errorMessage :=
        match ts.errorMessage with
        | none => error
        | some m => some m }

/-- The metadata field mutated by `allocateGlobalBytes`. -/
structure MetadataGlobals where
  globalDataLength : Nat
deriving DecidableEq

/-- `ModuleGenerator::allocateGlobalBytes`: overflow-checked alignment and
bump of `metadata_->globalDataLength`; `metadata_->globalDataLength` is
written only after both checks pass, so a failing call leaves it unchanged.
Returns the (possibly unchanged) metadata and `some globalDataOffset` on
success. -/
def allocateGlobalBytes (m : MetadataGlobals) (bytes align : Nat) :
    MetadataGlobals × Option Nat :=
  let padded := m.globalDataLength + ComputeByteAlignment m.globalDataLength align
  if padded > UINT32_MAX then (m, none)
  else
    let newLength := padded + bytes
    if newLength > UINT32_MAX then (m, none)
    else ({ globalDataLength := newLength }, some padded)

/-- `metadataTier.codeRanges` is non-decreasing in `begin`. -/
def sortedRanges (l : List CodeRange) : Prop :=
  l.Pairwise fun a b => a.begin_ ≤ b.begin_

/-- `metadataTier.callSites` is non-decreasing in `returnAddressOffset`. -/
def sortedSites (l : List CallSite) : Prop :=
  l.Pairwise fun a b => a.returnAddressOffset ≤ b.returnAddressOffset

/-- The generator's standing invariant: both metadata tables are sorted and
every recorded offset lies within the code emitted so far. -/
def GenInv (s : GenState) : Prop :=
  sortedRanges s.codeRanges ∧ sortedSites s.callSites ∧
  (∀ r ∈ s.codeRanges, r.begin_ ≤ s.msize) ∧
  (∀ c ∈ s.callSites, c.returnAddressOffset ≤ s.msize)

/-- A `FarJumpIsland` code range starting at `entry` has been recorded. -/
def islandAt (s : GenState) (entry : Nat) : Prop :=
  ∃ r, r ∈ s.codeRanges ∧ r.kind = CodeRangeKind.FarJumpIsland ∧ r.begin_ = entry

/-- A pending call-far-jump record for callee `funcIndex` whose patchable
jump sits at `jump`. -/
def cfjAt (s : GenState) (funcIndex jump : Nat) : Prop :=
  ∃ c, c ∈ s.callFarJumps ∧ c.funcIndex = funcIndex ∧ c.jump = jump

/-- Growth preorder on generator states along a `linkCallSites` pass:
recorded patches and pending call far jumps persist, `codeRanges` only gets
appended to, the buffer only grows, and `funcToCodeRange_` is untouched. -/
def GenLE (a b : GenState) : Prop :=
  (∀ p ∈ a.patches, p ∈ b.patches) ∧
  (∃ t, b.codeRanges = a.codeRanges ++ t) ∧
  (∀ c ∈ a.callFarJumps, c ∈ b.callFarJumps) ∧
  a.msize ≤ b.msize ∧
  b.funcToCodeRange = a.funcToCodeRange

/-- Invariant of the pass-local island cache `existingCallFarJumps`: every
cached entry names a recorded `FarJumpIsland` with a matching pending call
far jump, lying at or beyond the pass's starting buffer size `m0`. -/
def MapInv (m0 : Nat) (ps : PassState) : Prop :=
  m0 ≤ ps.g.msize ∧
  ∀ p ∈ ps.existingCallFarJumps,
    islandAt ps.g p.2 ∧ cfjAt ps.g p.1 p.2 ∧ m0 ≤ p.2 ∧ p.2 ≤ ps.g.msize

/-- A state with a compiled function at the bottom of the buffer and one
pending `Func` call site too far from it for a direct patch. -/
def sW3 : GenState :=
  { emptyGen with
    msize := 50
    codeRanges := [{ kind := .Function, begin_ := 0, end_ := 8, funcIndex := 0, trap := 0 }]
    callSites := [{ returnAddressOffset := 46, kind := .Func }]
    callSiteTargets := [⟨0⟩]
    funcToCodeRange := [0] }

/-- A configuration with a tiny branch range (`min 5 5 = 5`), under which a
far-jump island emitted at the buffer end is itself out of range of a
distant caller. -/
def cfgCE : Config where
  codeAlignment := 1
  jumpThreshold := 5
  jumpImmediateRange := 5
  farJumpSize := 2
  loadPtrSize := 1
  funcNormalEntryOffset := 0
  wasmBatchBaselineThreshold := 0
  wasmBatchIonThreshold := 0

/-- A state whose single unpatched `Func` call site at offset 10 targets a
compiled callee at offset 40, with the buffer already grown to 100. -/
def sCE : GenState :=
  { emptyGen with
    msize := 100
    codeRanges := [{ kind := .Function, begin_ := 40, end_ := 50, funcIndex := 0, trap := 0 }]
    callSites := [{ returnAddressOffset := 10, kind := .Func }]
    callSiteTargets := [⟨0⟩]
    funcToCodeRange := [0] }

/-- A run of code ranges with one range of each once-assigned kind (used to
exercise the `noteCodeRange` single-assignment property on concrete data). -/
def c8Ranges : List CodeRange :=
  [{ kind := .TrapExit, begin_ := 4, end_ := 8, funcIndex := 0, trap := 2 },
   { kind := .DebugTrap, begin_ := 8, end_ := 12, funcIndex := 0, trap := 0 },
   { kind := .OutOfBoundsExit, begin_ := 12, end_ := 16, funcIndex := 0, trap := 0 },
   { kind := .UnalignedExit, begin_ := 16, end_ := 20, funcIndex := 0, trap := 0 },
   { kind := .Interrupt, begin_ := 20, end_ := 24, funcIndex := 0, trap := 0 },
   { kind := .Function, begin_ := 24, end_ := 40, funcIndex := 0, trap := 0 }]

/-- A concrete configuration used to exercise the linker on concrete data:
4-byte code alignment, branch range `min 20 100 = 20`. -/
def cfgW : Config where
  codeAlignment := 4
  jumpThreshold := 20
  jumpImmediateRange := 100
  farJumpSize := 2
  loadPtrSize := 1
  funcNormalEntryOffset := 0
  wasmBatchBaselineThreshold := 100
  wasmBatchIonThreshold := 200

/-- A generator state holding one compiled function and one pending call
site, satisfying the standing invariant. -/
def sW2 : GenState :=
  { emptyGen with
    msize := 10
    codeRanges := [{ kind := .Function, begin_ := 0, end_ := 8, funcIndex := 0, trap := 0 }]
    callSites := [{ returnAddressOffset := 6, kind := .Func }]
    callSiteTargets := [⟨0⟩]
    funcToCodeRange := [0] }

/-- A compiled-code artifact with internally sorted side tables. -/
def codeW2 : CompiledCode where
  bytesLength := 6
  codeRanges := [{ kind := .Function, begin_ := 0, end_ := 6, funcIndex := 1, trap := 0 }]
  callSites := [{ returnAddressOffset := 2, kind := .Func }]
  callSiteTargets := [⟨0⟩]
  trapFarJumps := []
  callFarJumps := []
  memoryAccesses := []
  symbolicAccesses := []
  codeLabels := []

/-! Frame lemmas: which `GenState` fields `noteCodeRange` leaves alone. -/

theorem noteCodeRange_msize (s : GenState) (i : Nat) (r : CodeRange) :
    (noteCodeRange s i r).msize = s.msize := by
  rcases r with ⟨k, b, e, f, t⟩
  cases k <;> rfl

theorem noteCodeRange_codeRanges (s : GenState) (i : Nat) (r : CodeRange) :
    (noteCodeRange s i r).codeRanges = s.codeRanges := by
  rcases r with ⟨k, b, e, f, t⟩
  cases k <;> rfl

theorem noteCodeRange_callSites (s : GenState) (i : Nat) (r : CodeRange) :
    (noteCodeRange s i r).callSites = s.callSites := by
  rcases r with ⟨k, b, e, f, t⟩
  cases k <;> rfl

theorem noteCodeRange_callSiteTargets (s : GenState) (i : Nat) (r : CodeRange) :
    (noteCodeRange s i r).callSiteTargets = s.callSiteTargets := by
  rcases r with ⟨k, b, e, f, t⟩
  cases k <;> rfl

theorem noteCodeRange_trapFarJumps (s : GenState) (i : Nat) (r : CodeRange) :
    (noteCodeRange s i r).trapFarJumps = s.trapFarJumps := by
  rcases r with ⟨k, b, e, f, t⟩
  cases k <;> rfl

theorem noteCodeRange_callFarJumps (s : GenState) (i : Nat) (r : CodeRange) :
    (noteCodeRange s i r).callFarJumps = s.callFarJumps := by
  rcases r with ⟨k, b, e, f, t⟩
  cases k <;> rfl

theorem noteCodeRange_memoryAccesses (s : GenState) (i : Nat) (r : CodeRange) :
    (noteCodeRange s i r).memoryAccesses = s.memoryAccesses := by
  rcases r with ⟨k, b, e, f, t⟩
  cases k <;> rfl

theorem noteCodeRange_symbolicLinks (s : GenState) (i : Nat) (r : CodeRange) :
    (noteCodeRange s i r).symbolicLinks = s.symbolicLinks := by
  rcases r with ⟨k, b, e, f, t⟩
  cases k <;> rfl

theorem noteCodeRange_internalLinks (s : GenState) (i : Nat) (r : CodeRange) :
    (noteCodeRange s i r).internalLinks = s.internalLinks := by
  rcases r with ⟨k, b, e, f, t⟩
  cases k <;> rfl

theorem noteCodeRange_patches (s : GenState) (i : Nat) (r : CodeRange) :
    (noteCodeRange s i r).patches = s.patches := by
  rcases r with ⟨k, b, e, f, t⟩
  cases k <;> rfl

theorem noteCodeRange_farPatches (s : GenState) (i : Nat) (r : CodeRange) :
    (noteCodeRange s i r).farPatches = s.farPatches := by
  rcases r with ⟨k, b, e, f, t⟩
  cases k <;> rfl

theorem noteCodeRange_debugTrapFarJumpOffsets (s : GenState) (i : Nat) (r : CodeRange) :
    (noteCodeRange s i r).debugTrapFarJumpOffsets = s.debugTrapFarJumpOffsets := by
  rcases r with ⟨k, b, e, f, t⟩
  cases k <;> rfl

theorem noteCodeRange_debugTrapFarJumps (s : GenState) (i : Nat) (r : CodeRange) :
    (noteCodeRange s i r).debugTrapFarJumps = s.debugTrapFarJumps := by
  rcases r with ⟨k, b, e, f, t⟩
  cases k <;> rfl

theorem noteCodeRange_lastPatchedCallSite (s : GenState) (i : Nat) (r : CodeRange) :
    (noteCodeRange s i r).lastPatchedCallSite = s.lastPatchedCallSite := by
  rcases r with ⟨k, b, e, f, t⟩
  cases k <;> rfl

/-! `linkCodeRanges`: what it appends and what it leaves alone. -/

theorem linkCodeRanges_codeRanges (B : Nat) (rs : List CodeRange) :
    ∀ s : GenState,
      (linkCodeRanges B s rs).codeRanges = s.codeRanges ++ rs.map (CodeRange.offsetBy B) := by
  induction rs with
  | nil => intro s; simp [linkCodeRanges]
  | cons r rest ih =>
    intro s
    simp only [linkCodeRanges]
    rw [ih]
    simp [noteCodeRange_codeRanges]

theorem linkCodeRanges_frame (B : Nat) (rs : List CodeRange) :
    ∀ s : GenState,
      (linkCodeRanges B s rs).msize = s.msize ∧
      (linkCodeRanges B s rs).callSites = s.callSites ∧
      (linkCodeRanges B s rs).callSiteTargets = s.callSiteTargets ∧
      (linkCodeRanges B s rs).trapFarJumps = s.trapFarJumps ∧
      (linkCodeRanges B s rs).callFarJumps = s.callFarJumps ∧
      (linkCodeRanges B s rs).memoryAccesses = s.memoryAccesses ∧
      (linkCodeRanges B s rs).symbolicLinks = s.symbolicLinks ∧
      (linkCodeRanges B s rs).internalLinks = s.internalLinks ∧
      (linkCodeRanges B s rs).patches = s.patches ∧
      (linkCodeRanges B s rs).farPatches = s.farPatches ∧
      (linkCodeRanges B s rs).debugTrapFarJumpOffsets = s.debugTrapFarJumpOffsets ∧
      (linkCodeRanges B s rs).debugTrapFarJumps = s.debugTrapFarJumps ∧
      (linkCodeRanges B s rs).lastPatchedCallSite = s.lastPatchedCallSite := by
  induction rs with
  | nil => intro s; simp [linkCodeRanges]
  | cons r rest ih =>
    intro s
    simp only [linkCodeRanges]
    have h := ih { noteCodeRange s s.codeRanges.length (CodeRange.offsetBy B r) with
      codeRanges := (noteCodeRange s s.codeRanges.length (CodeRange.offsetBy B r)).codeRanges
        ++ [CodeRange.offsetBy B r] }
    simpa [noteCodeRange_msize, noteCodeRange_callSites, noteCodeRange_callSiteTargets,
      noteCodeRange_trapFarJumps, noteCodeRange_callFarJumps, noteCodeRange_memoryAccesses,
      noteCodeRange_symbolicLinks, noteCodeRange_internalLinks, noteCodeRange_patches,
      noteCodeRange_farPatches, noteCodeRange_debugTrapFarJumpOffsets,
      noteCodeRange_debugTrapFarJumps, noteCodeRange_lastPatchedCallSite] using h

/-! Basic arithmetic facts about alignment. -/

theorem le_alignUp (n a : Nat) : n ≤ alignUp n a := by
  unfold alignUp
  split
  · exact Nat.le_refl n
  · rename_i ha
    have ha' : 0 < a := Nat.pos_of_ne_zero ha
    have h1 := Nat.div_add_mod (n + a - 1) a
    have h2 := Nat.mod_lt (n + a - 1) ha'
    have h3 : (n + a - 1) / a * a = a * ((n + a - 1) / a) := Nat.mul_comm _ _
    rw [h3]
    omega

theorem computeByteAlignment_lt (g a : Nat) (ha : 0 < a) :
    ComputeByteAlignment g a < a := by
  unfold ComputeByteAlignment
  exact Nat.mod_lt _ ha

theorem computeByteAlignment_mod (g a : Nat) (ha : 0 < a) :
    (g + ComputeByteAlignment g a) % a = 0 := by
  unfold ComputeByteAlignment
  rcases Nat.eq_zero_or_pos (g % a) with h0 | hpos
  · rw [h0, Nat.sub_zero, Nat.mod_self, Nat.add_zero]
    exact h0
  · have hmod : g % a < a := Nat.mod_lt _ ha
    have hlt : a - g % a < a := by omega
    rw [Nat.mod_eq_of_lt hlt]
    have hd := Nat.div_add_mod g a
    have he : g + (a - g % a) = a * (g / a) + a := by omega
    rw [he, ← Nat.mul_succ]
    exact Nat.mul_mod_right a _

/-- C7: the in-range predicate used for all call patching decisions holds
iff the absolute difference of the two offsets is below
`branchRange = min(jumpThreshold, JumpImmediateRange)`; the caller side is
the call site's return-address offset wherever `InRange` is consulted. -/
theorem inRange_iff_abs_lt_branchRange (cfg : Config) (caller callee : Nat) :
    InRange cfg caller callee = true ↔
      ((caller : Int) - (callee : Int)).natAbs < branchRange cfg := by
  unfold InRange
  split <;> simp <;> omega

/-- C6: `compileFuncDef` invokes `launchBatchCompile` exactly when the
accumulated bytecode of the current task, after appending this function
body, exceeds the tier's batch threshold; at exact equality no batch is
launched. -/
theorem compileFuncDefBatch_launch_iff_threshold_exceeded (cfg : Config) (tier : Tier)
    (batchedBytecode funcBytecodeLength : Nat) :
    ((compileFuncDefBatch cfg tier batchedBytecode funcBytecodeLength).2 = true ↔
      batchThreshold cfg tier < batchedBytecode + funcBytecodeLength) ∧
    (batchedBytecode + funcBytecodeLength = batchThreshold cfg tier →
      (compileFuncDefBatch cfg tier batchedBytecode funcBytecodeLength).2 = false) := by
  unfold compileFuncDefBatch
  dsimp only
  constructor
  · split <;> simp <;> omega
  · intro h
    rw [if_pos (Nat.le_of_eq h)]

/-- C9: recording a worker failure into the shared task state increments
`numFailed` and stores the error message only when none is present, so the
first failure's message is the one surfaced. -/
theorem executeCompileTaskRecord_first_error_wins (ts : TaskState) (task : Nat)
    (ok appendOk : Bool) (error : Option String)
    (hfail : ok = false ∨ appendOk = false) :
    (executeCompileTaskRecord ts task ok appendOk error).numFailed = ts.numFailed + 1 ∧
    (∀ m, ts.errorMessage = some m →
      (executeCompileTaskRecord ts task ok appendOk error).errorMessage = some m) ∧
    (ts.errorMessage = none →
      (executeCompileTaskRecord ts task ok appendOk error).errorMessage = error) := by
  have hb : (ok && appendOk) = false := by
    rcases hfail with h | h <;> simp [h]
  unfold executeCompileTaskRecord
  rw [hb]
  refine ⟨rfl, ?_, ?_⟩
  · intro m hm
    simp [hm]
  · intro hm
    simp [hm]

theorem executeCompileTaskRecord_first_error_wins_witness :
    (executeCompileTaskRecord ⟨[], 3, some "first"⟩ 1 false true (some "second")).errorMessage
      = some "first" :=
  (executeCompileTaskRecord_first_error_wins ⟨[], 3, some "first"⟩ 1 false true
    (some "second") (Or.inl rfl)).2.1 "first" rfl

/-- C10: `allocateGlobalBytes` is atomic on failure (the globals metadata is
returned unchanged) and on success yields an offset equal to the old
`globalDataLength` rounded up to `align` (a multiple of `align`, at least
the old value, less than one alignment above it) with the new
`globalDataLength` equal to that offset plus `bytes`. -/
theorem allocateGlobalBytes_atomic (m : MetadataGlobals) (bytes align : Nat)
    (ha : 0 < align) :
    ((allocateGlobalBytes m bytes align).2 = none →
      (allocateGlobalBytes m bytes align).1 = m) ∧
    (∀ off, (allocateGlobalBytes m bytes align).2 = some off →
      off % align = 0 ∧ m.globalDataLength ≤ off ∧ off < m.globalDataLength + align ∧
      (allocateGlobalBytes m bytes align).1.globalDataLength = off + bytes) := by
  unfold allocateGlobalBytes
  dsimp only
  split
  · exact ⟨fun _ => rfl, fun off h => by simp at h⟩
  · split
    · exact ⟨fun _ => rfl, fun off h => by simp at h⟩
    · refine ⟨fun h => by simp at h, fun off h => ?_⟩
      simp only [Option.some.injEq] at h
      subst h
      refine ⟨computeByteAlignment_mod _ _ ha, Nat.le_add_right _ _, ?_, rfl⟩
      have := computeByteAlignment_lt m.globalDataLength align ha
      omega

theorem allocateGlobalBytes_atomic_witness :
    (allocateGlobalBytes ⟨12⟩ 16 8).1.globalDataLength = 16 + 16 :=
  ((allocateGlobalBytes_atomic ⟨12⟩ 16 8 (by decide)).2 16 rfl).2.2.2

/-- C1: `linkCompiledCode` rebases every recorded offset by exactly `B`,
the master buffer's size after alignment at the moment of the append: each
appended `CodeRange` (begin and end), each appended `CallSite`
(returnAddressOffset), each `trapFarJump`, `callFarJump` and
`memoryAccess` is shifted by `B`; each `SymbolicAccess{patchAt, target}`
pushes `B + patchAt` onto `symbolicLinks[target]`; each
`CodeLabel{patchAt, target}` pushes `{B + patchAt, B + target}` onto
`internalLinks`; `callSiteTargets` is appended verbatim. -/
theorem linkCompiledCode_rebases_offsets (cfg : Config) (s : GenState) (code : CompiledCode) :
    (linkCompiledCode cfg s code).codeRanges =
      s.codeRanges ++ code.codeRanges.map (CodeRange.offsetBy (alignUp s.msize cfg.codeAlignment)) ∧
    (linkCompiledCode cfg s code).callSites =
      s.callSites ++ code.callSites.map (CallSite.offsetBy (alignUp s.msize cfg.codeAlignment)) ∧
    (linkCompiledCode cfg s code).callSiteTargets =
      s.callSiteTargets ++ code.callSiteTargets ∧
    (linkCompiledCode cfg s code).trapFarJumps =
      s.trapFarJumps ++ code.trapFarJumps.map (TrapFarJump.offsetBy (alignUp s.msize cfg.codeAlignment)) ∧
    (linkCompiledCode cfg s code).callFarJumps =
      s.callFarJumps ++ code.callFarJumps.map (CallFarJump.offsetBy (alignUp s.msize cfg.codeAlignment)) ∧
    (linkCompiledCode cfg s code).memoryAccesses =
      s.memoryAccesses ++ code.memoryAccesses.map (· + alignUp s.msize cfg.codeAlignment) ∧
    (linkCompiledCode cfg s code).symbolicLinks =
      s.symbolicLinks ++ code.symbolicAccesses.map
        (fun a => (a.target, alignUp s.msize cfg.codeAlignment + a.patchAt)) ∧
    (linkCompiledCode cfg s code).internalLinks =
      s.internalLinks ++ code.codeLabels.map
        (fun l => (alignUp s.msize cfg.codeAlignment + l.patchAt,
          alignUp s.msize cfg.codeAlignment + l.target)) := by
  unfold linkCompiledCode
  dsimp only
  have hcr := linkCodeRanges_codeRanges (alignUp s.msize cfg.codeAlignment) code.codeRanges
    { s with msize := alignUp s.msize cfg.codeAlignment + code.bytesLength }
  have hfr := linkCodeRanges_frame (alignUp s.msize cfg.codeAlignment) code.codeRanges
    { s with msize := alignUp s.msize cfg.codeAlignment + code.bytesLength }
  refine ⟨by simpa using hcr, ?_, ?_, ?_, ?_, ?_, ?_, ?_⟩ <;>
    simp only [hfr.2.1, hfr.2.2.1, hfr.2.2.2.1, hfr.2.2.2.2.1, hfr.2.2.2.2.2.1,
      hfr.2.2.2.2.2.2.1, hfr.2.2.2.2.2.2.2.1]

/-! The exported-function set: membership and freedom from duplicates. -/

theorem mem_putFunc {x f : Nat} {l : List Nat} :
    x ∈ putFunc l f ↔ x ∈ l ∨ x = f := by
  unfold putFunc
  split
  · rename_i h
    constructor
    · exact Or.inl
    · rintro (hx | rfl)
      · exact hx
      · exact h
  · simp

theorem nodup_putFunc {l : List Nat} (h : l.Nodup) (f : Nat) :
    (putFunc l f).Nodup := by
  unfold putFunc
  split
  · exact h
  · rename_i hf
    simp [List.nodup_append, h, hf]

theorem mem_foldl_putFunc (x : Nat) (fs : List Nat) :
    ∀ acc : List Nat, x ∈ fs.foldl putFunc acc ↔ x ∈ acc ∨ x ∈ fs := by
  induction fs with
  | nil => simp
  | cons f rest ih =>
    intro acc
    simp only [List.foldl_cons]
    rw [ih, mem_putFunc]
    simp only [List.mem_cons]
    tauto

theorem nodup_foldl_putFunc (fs : List Nat) :
    ∀ acc : List Nat, acc.Nodup → (fs.foldl putFunc acc).Nodup := by
  induction fs with
  | nil => intro acc h; exact h
  | cons f rest ih =>
    intro acc h
    exact ih _ (nodup_putFunc h f)

theorem mem_exports_foldl (x : Nat) (es : List ExportDecl) :
    ∀ acc : List Nat,
      (x ∈ es.foldl (fun acc e => if e.isFunc then putFunc acc e.funcIndex else acc) acc ↔
        x ∈ acc ∨ ∃ e ∈ es, e.isFunc = true ∧ e.funcIndex = x) := by
  induction es with
  | nil => simp
  | cons e rest ih =>
    intro acc
    simp only [List.foldl_cons]
    rw [ih]
    by_cases he : e.isFunc = true
    · rw [if_pos he, mem_putFunc]
      simp only [List.mem_cons]
      constructor
      · rintro (⟨hx | rfl⟩ | ⟨e', he', hf, hi⟩)
        · exact Or.inl hx
        · exact Or.inr ⟨e, Or.inl rfl, he, rfl⟩
        · exact Or.inr ⟨e', Or.inr he', hf, hi⟩
      · rintro (hx | ⟨e', he' | he', hf, hi⟩)
        · exact Or.inl (Or.inl hx)
        · subst he'; exact Or.inl (Or.inr hi.symm)
        · exact Or.inr ⟨e', he', hf, hi⟩
    · rw [if_neg he]
      simp only [List.mem_cons]
      constructor
      · rintro (hx | ⟨e', he', hf, hi⟩)
        · exact Or.inl hx
        · exact Or.inr ⟨e', Or.inr he', hf, hi⟩
      · rintro (hx | ⟨e', he' | he', hf, hi⟩)
        · exact Or.inl hx
        · subst he'; exact absurd hf he
        · exact Or.inr ⟨e', he', hf, hi⟩

theorem nodup_exports_foldl (es : List ExportDecl) :
    ∀ acc : List Nat, acc.Nodup →
      (es.foldl (fun acc e => if e.isFunc then putFunc acc e.funcIndex else acc) acc).Nodup := by
  induction es with
  | nil => intro acc h; exact h
  | cons e rest ih =>
    intro acc h
    simp only [List.foldl_cons]
    split
    · exact ih _ (nodup_putFunc h _)
    · exact ih _ h

theorem mem_seedExportedFuncs (env : ModuleEnv) (x : Nat) :
    x ∈ seedExportedFuncs env ↔
      (∃ e ∈ env.exports, e.isFunc = true ∧ e.funcIndex = x) ∨
        env.startFuncIndex = some x := by
  unfold seedExportedFuncs
  cases hs : env.startFuncIndex with
  | none =>
    rw [mem_exports_foldl]
    simp
  | some f =>
    rw [mem_putFunc, mem_exports_foldl]
    simp only [List.not_mem_nil, false_or, Option.some.injEq]
    constructor
    · rintro (h | rfl)
      · exact Or.inl h
      · exact Or.inr rfl
    · rintro (h | rfl)
      · exact Or.inl h
      · exact Or.inr rfl

theorem nodup_seedExportedFuncs (env : ModuleEnv) :
    (seedExportedFuncs env).Nodup := by
  unfold seedExportedFuncs
  cases env.startFuncIndex with
  | none => exact nodup_exports_foldl _ _ List.nodup_nil
  | some f => exact nodup_putFunc (nodup_exports_foldl _ _ List.nodup_nil) f

theorem mem_segs_foldl (tables : List TableDesc) (x : Nat) (segs : List ElemSegment) :
    ∀ acc : List Nat,
      (x ∈ segs.foldl (fun acc seg =>
          if (tables.getD seg.tableIndex ⟨false⟩).external then
            seg.elemFuncIndices.foldl putFunc acc
          else acc) acc ↔
        x ∈ acc ∨ ∃ seg ∈ segs,
          (tables.getD seg.tableIndex ⟨false⟩).external = true ∧ x ∈ seg.elemFuncIndices) := by
  induction segs with
  | nil => simp
  | cons seg rest ih =>
    intro acc
    simp only [List.foldl_cons]
    rw [ih]
    by_cases he : (tables.getD seg.tableIndex ⟨false⟩).external = true
    · rw [if_pos he, mem_foldl_putFunc]
      simp only [List.mem_cons]
      constructor
      · rintro (⟨hx | hx⟩ | ⟨s', hs', hf, hi⟩)
        · exact Or.inl hx
        · exact Or.inr ⟨seg, Or.inl rfl, he, hx⟩
        · exact Or.inr ⟨s', Or.inr hs', hf, hi⟩
      · rintro (hx | ⟨s', hs' | hs', hf, hi⟩)
        · exact Or.inl (Or.inl hx)
        · subst hs'; exact Or.inl (Or.inr hi)
        · exact Or.inr ⟨s', hs', hf, hi⟩
    · rw [if_neg he]
      simp only [List.mem_cons]
      constructor
      · rintro (hx | ⟨s', hs', hf, hi⟩)
        · exact Or.inl hx
        · exact Or.inr ⟨s', Or.inr hs', hf, hi⟩
      · rintro (hx | ⟨s', hs' | hs', hf, hi⟩)
        · exact Or.inl hx
        · subst hs'; exact absurd hf he
        · exact Or.inr ⟨s', hs', hf, hi⟩

theorem nodup_segs_foldl (tables : List TableDesc) (segs : List ElemSegment) :
    ∀ acc : List Nat, acc.Nodup →
      (segs.foldl (fun acc seg =>
        if (tables.getD seg.tableIndex ⟨false⟩).external then
          seg.elemFuncIndices.foldl putFunc acc
        else acc) acc).Nodup := by
  induction segs with
  | nil => intro acc h; exact h
  | cons seg rest ih =>
    intro acc h
    simp only [List.foldl_cons]
    split
    · exact ih _ (nodup_foldl_putFunc _ _ h)
    · exact ih _ h

theorem mem_addElemSegmentFuncs (env : ModuleEnv) (exported : List Nat) (x : Nat) :
    x ∈ addElemSegmentFuncs env exported ↔
      x ∈ exported ∨ ∃ seg ∈ env.elemSegments,
        (env.tables.getD seg.tableIndex ⟨false⟩).external = true ∧
          x ∈ seg.elemFuncIndices := by
  unfold addElemSegmentFuncs
  exact mem_segs_foldl env.tables x env.elemSegments exported

theorem nodup_addElemSegmentFuncs (env : ModuleEnv) (exported : List Nat)
    (h : exported.Nodup) : (addElemSegmentFuncs env exported).Nodup := by
  unfold addElemSegmentFuncs
  exact nodup_segs_foldl env.tables env.elemSegments exported h

/-- C5: after `finishFuncExports`, `funcExports` is strictly sorted by
function index (hence duplicate-free), and its set of function indices is
exactly the explicit function exports, plus the start function if present,
plus every element of every element segment whose table is external. -/
theorem finishFuncExports_sorted_complete (env : ModuleEnv) :
    List.Pairwise (fun a b => a.funcIndex < b.funcIndex)
      (finishFuncExports env (seedExportedFuncs env)) ∧
    ∀ x : Nat,
      ((∃ fe ∈ finishFuncExports env (seedExportedFuncs env), fe.funcIndex = x) ↔
        ((∃ e ∈ env.exports, e.isFunc = true ∧ e.funcIndex = x) ∨
          env.startFuncIndex = some x ∨
          (∃ seg ∈ env.elemSegments,
            (env.tables.getD seg.tableIndex ⟨false⟩).external = true ∧
              x ∈ seg.elemFuncIndices))) := by
  unfold finishFuncExports
  dsimp only
  have hperm := List.perm_insertionSort (α := Nat) (· ≤ ·)
    (addElemSegmentFuncs env (seedExportedFuncs env))
  have hnd : (List.insertionSort (· ≤ ·)
      (addElemSegmentFuncs env (seedExportedFuncs env))).Nodup :=
    hperm.nodup_iff.mpr
      (nodup_addElemSegmentFuncs env _ (nodup_seedExportedFuncs env))
  have hsorted : (List.insertionSort (· ≤ ·)
      (addElemSegmentFuncs env (seedExportedFuncs env))).Sorted (· < ·) :=
    (List.sorted_insertionSort (· ≤ ·) _).lt_of_le hnd
  constructor
  · rw [List.pairwise_map]
    exact hsorted
  · intro x
    have hmem : ∀ y : Nat, (y ∈ List.insertionSort (· ≤ ·)
        (addElemSegmentFuncs env (seedExportedFuncs env)) ↔
          y ∈ addElemSegmentFuncs env (seedExportedFuncs env)) :=
      fun y => hperm.mem_iff
    constructor
    · rintro ⟨fe, hfe, rfl⟩
      obtain ⟨y, hy, rfl⟩ := List.mem_map.mp hfe
      have := (hmem y).mp hy
      rw [mem_addElemSegmentFuncs, mem_seedExportedFuncs] at this
      dsimp only
      rcases this with (h | h) | h
      · exact Or.inl h
      · exact Or.inr (Or.inl h)
      · exact Or.inr (Or.inr h)
    · intro h
      have hx : x ∈ addElemSegmentFuncs env (seedExportedFuncs env) := by
        rw [mem_addElemSegmentFuncs, mem_seedExportedFuncs]
        rcases h with h | h | h
        · exact Or.inl (Or.inl h)
        · exact Or.inl (Or.inr h)
        · exact Or.inr h
      exact ⟨⟨x, 0⟩, List.mem_map.mpr ⟨x, (hmem x).mpr hx, rfl⟩, rfl⟩

/-! Per-kind effects of `noteCodeRange` on the once-assigned offsets. -/

theorem getD_set_ne {l : List Nat} {m f : Nat} (h : f ≠ m) (v d : Nat) :
    (l.set m v).getD f d = l.getD f d := by
  rw [List.getD_eq_getElem?_getD, List.getD_eq_getElem?_getD,
    List.getElem?_set_ne (fun he => h he.symm)]

theorem noteCodeRange_funcToCodeRange_of_ne (s : GenState) (i : Nat) (r : CodeRange)
    (h : r.kind ≠ CodeRangeKind.Function) :
    (noteCodeRange s i r).funcToCodeRange = s.funcToCodeRange := by
  rcases r with ⟨k, b, e, f, t⟩
  cases k <;> first | rfl | exact absurd rfl h

theorem noteCodeRange_function_val (s : GenState) (i : Nat) (r : CodeRange)
    (h : r.kind = CodeRangeKind.Function) :
    (noteCodeRange s i r).funcToCodeRange = s.funcToCodeRange.set r.funcIndex i := by
  rcases r with ⟨k, b, e, f, t⟩
  cases k <;> first | rfl | simp at h

theorem noteCodeRange_trapCodeOffsets_of_ne (s : GenState) (i : Nat) (r : CodeRange)
    (h : r.kind ≠ CodeRangeKind.TrapExit) :
    (noteCodeRange s i r).trapCodeOffsets = s.trapCodeOffsets := by
  rcases r with ⟨k, b, e, f, t⟩
  cases k <;> first | rfl | exact absurd rfl h

theorem noteCodeRange_trapExit_val (s : GenState) (i : Nat) (r : CodeRange)
    (h : r.kind = CodeRangeKind.TrapExit) (t : Nat) :
    (noteCodeRange s i r).trapCodeOffsets t =
      if t = r.trap then r.begin_ else s.trapCodeOffsets t := by
  rcases r with ⟨k, b, e, f, tr⟩
  cases k <;> first | rfl | simp at h

theorem noteCodeRange_debugTrapCodeOffset_of_ne (s : GenState) (i : Nat) (r : CodeRange)
    (h : r.kind ≠ CodeRangeKind.DebugTrap) :
    (noteCodeRange s i r).debugTrapCodeOffset = s.debugTrapCodeOffset := by
  rcases r with ⟨k, b, e, f, t⟩
  cases k <;> first | rfl | exact absurd rfl h

theorem noteCodeRange_debugTrap_val (s : GenState) (i : Nat) (r : CodeRange)
    (h : r.kind = CodeRangeKind.DebugTrap) :
    (noteCodeRange s i r).debugTrapCodeOffset = r.begin_ := by
  rcases r with ⟨k, b, e, f, t⟩
  cases k <;> first | rfl | simp at h

theorem noteCodeRange_outOfBoundsOffset_of_ne (s : GenState) (i : Nat) (r : CodeRange)
    (h : r.kind ≠ CodeRangeKind.OutOfBoundsExit) :
    (noteCodeRange s i r).outOfBoundsOffset = s.outOfBoundsOffset := by
  rcases r with ⟨k, b, e, f, t⟩
  cases k <;> first | rfl | exact absurd rfl h

theorem noteCodeRange_outOfBounds_val (s : GenState) (i : Nat) (r : CodeRange)
    (h : r.kind = CodeRangeKind.OutOfBoundsExit) :
    (noteCodeRange s i r).outOfBoundsOffset = r.begin_ := by
  rcases r with ⟨k, b, e, f, t⟩
  cases k <;> first | rfl | simp at h

theorem noteCodeRange_unalignedAccessOffset_of_ne (s : GenState) (i : Nat) (r : CodeRange)
    (h : r.kind ≠ CodeRangeKind.UnalignedExit) :
    (noteCodeRange s i r).unalignedAccessOffset = s.unalignedAccessOffset := by
  rcases r with ⟨k, b, e, f, t⟩
  cases k <;> first | rfl | exact absurd rfl h

theorem noteCodeRange_unaligned_val (s : GenState) (i : Nat) (r : CodeRange)
    (h : r.kind = CodeRangeKind.UnalignedExit) :
    (noteCodeRange s i r).unalignedAccessOffset = r.begin_ := by
  rcases r with ⟨k, b, e, f, t⟩
  cases k <;> first | rfl | simp at h

theorem noteCodeRange_interruptOffset_of_ne (s : GenState) (i : Nat) (r : CodeRange)
    (h : r.kind ≠ CodeRangeKind.Interrupt) :
    (noteCodeRange s i r).interruptOffset = s.interruptOffset := by
  rcases r with ⟨k, b, e, f, t⟩
  cases k <;> first | rfl | exact absurd rfl h

theorem noteCodeRange_interrupt_val (s : GenState) (i : Nat) (r : CodeRange)
    (h : r.kind = CodeRangeKind.Interrupt) :
    (noteCodeRange s i r).interruptOffset = r.begin_ := by
  rcases r with ⟨k, b, e, f, t⟩
  cases k <;> first | rfl | simp at h

/-! Frame lemmas over whole `noteAll` runs. -/

theorem noteAll_trapCodeOffsets_frame (t : Nat) (rs : List CodeRange) :
    ∀ (s : GenState) (i : Nat),
      (∀ r ∈ rs, ¬(r.kind = CodeRangeKind.TrapExit ∧ r.trap = t)) →
      (noteAll s i rs).trapCodeOffsets t = s.trapCodeOffsets t := by
  induction rs with
  | nil => intro s i _; rfl
  | cons r rest ih =>
    intro s i h
    simp only [noteAll]
    rw [ih _ _ (fun r' hr' => h r' (List.mem_cons_of_mem _ hr'))]
    by_cases hk : r.kind = CodeRangeKind.TrapExit
    · rw [noteCodeRange_trapExit_val s i r hk,
        if_neg (fun (he : t = r.trap) => h r (List.mem_cons_self _ _) ⟨hk, he.symm⟩)]
    · rw [noteCodeRange_trapCodeOffsets_of_ne s i r hk]

theorem noteAll_debugTrapCodeOffset_frame (rs : List CodeRange) :
    ∀ (s : GenState) (i : Nat),
      (∀ r ∈ rs, r.kind ≠ CodeRangeKind.DebugTrap) →
      (noteAll s i rs).debugTrapCodeOffset = s.debugTrapCodeOffset := by
  induction rs with
  | nil => intro s i _; rfl
  | cons r rest ih =>
    intro s i h
    simp only [noteAll]
    rw [ih _ _ (fun r' hr' => h r' (List.mem_cons_of_mem _ hr')),
      noteCodeRange_debugTrapCodeOffset_of_ne s i r (h r (List.mem_cons_self _ _))]

theorem noteAll_outOfBoundsOffset_frame (rs : List CodeRange) :
    ∀ (s : GenState) (i : Nat),
      (∀ r ∈ rs, r.kind ≠ CodeRangeKind.OutOfBoundsExit) →
      (noteAll s i rs).outOfBoundsOffset = s.outOfBoundsOffset := by
  induction rs with
  | nil => intro s i _; rfl
  | cons r rest ih =>
    intro s i h
    simp only [noteAll]
    rw [ih _ _ (fun r' hr' => h r' (List.mem_cons_of_mem _ hr')),
      noteCodeRange_outOfBoundsOffset_of_ne s i r (h r (List.mem_cons_self _ _))]

theorem noteAll_unalignedAccessOffset_frame (rs : List CodeRange) :
    ∀ (s : GenState) (i : Nat),
      (∀ r ∈ rs, r.kind ≠ CodeRangeKind.UnalignedExit) →
      (noteAll s i rs).unalignedAccessOffset = s.unalignedAccessOffset := by
  induction rs with
  | nil => intro s i _; rfl
  | cons r rest ih =>
    intro s i h
    simp only [noteAll]
    rw [ih _ _ (fun r' hr' => h r' (List.mem_cons_of_mem _ hr')),
      noteCodeRange_unalignedAccessOffset_of_ne s i r (h r (List.mem_cons_self _ _))]

theorem noteAll_interruptOffset_frame (rs : List CodeRange) :
    ∀ (s : GenState) (i : Nat),
      (∀ r ∈ rs, r.kind ≠ CodeRangeKind.Interrupt) →
      (noteAll s i rs).interruptOffset = s.interruptOffset := by
  induction rs with
  | nil => intro s i _; rfl
  | cons r rest ih =>
    intro s i h
    simp only [noteAll]
    rw [ih _ _ (fun r' hr' => h r' (List.mem_cons_of_mem _ hr')),
      noteCodeRange_interruptOffset_of_ne s i r (h r (List.mem_cons_self _ _))]

/-- Core single-assignment lemma for `noteCodeRange` runs: if no two ranges
of the run target the same once-assigned slot, and every slot already set in
the starting state has no range targeting it, then no assertion of
`noteCodeRange` fires and each once-assigned offset ends at the `begin` of
its unique range. -/
theorem noteAll_spec (rs : List CodeRange) :
    ∀ (s : GenState) (i : Nat),
      rs.Pairwise (fun a b => ¬(a.kind = CodeRangeKind.Function ∧
        b.kind = CodeRangeKind.Function ∧ a.funcIndex = b.funcIndex)) →
      rs.Pairwise (fun a b => ¬(a.kind = CodeRangeKind.TrapExit ∧
        b.kind = CodeRangeKind.TrapExit ∧ a.trap = b.trap)) →
      rs.Pairwise (fun a b => ¬(a.kind = CodeRangeKind.DebugTrap ∧
        b.kind = CodeRangeKind.DebugTrap)) →
      rs.Pairwise (fun a b => ¬(a.kind = CodeRangeKind.OutOfBoundsExit ∧
        b.kind = CodeRangeKind.OutOfBoundsExit)) →
      rs.Pairwise (fun a b => ¬(a.kind = CodeRangeKind.UnalignedExit ∧
        b.kind = CodeRangeKind.UnalignedExit)) →
      rs.Pairwise (fun a b => ¬(a.kind = CodeRangeKind.Interrupt ∧
        b.kind = CodeRangeKind.Interrupt)) →
      (∀ r ∈ rs, r.kind ≠ CodeRangeKind.FarJumpIsland ∧
        r.kind ≠ CodeRangeKind.BuiltinThunk) →
      (∀ f, s.funcToCodeRange.getD f BAD_CODE_RANGE = BAD_CODE_RANGE ∨
        ∀ r ∈ rs, ¬(r.kind = CodeRangeKind.Function ∧ r.funcIndex = f)) →
      (∀ t, s.trapCodeOffsets t = 0 ∨
        ∀ r ∈ rs, ¬(r.kind = CodeRangeKind.TrapExit ∧ r.trap = t)) →
      (s.debugTrapCodeOffset = 0 ∨ ∀ r ∈ rs, r.kind ≠ CodeRangeKind.DebugTrap) →
      (s.outOfBoundsOffset = 0 ∨ ∀ r ∈ rs, r.kind ≠ CodeRangeKind.OutOfBoundsExit) →
      (s.unalignedAccessOffset = 0 ∨ ∀ r ∈ rs, r.kind ≠ CodeRangeKind.UnalignedExit) →
      (s.interruptOffset = 0 ∨ ∀ r ∈ rs, r.kind ≠ CodeRangeKind.Interrupt) →
      (noteAllOk s i rs = true ∧
        (∀ r ∈ rs, r.kind = CodeRangeKind.TrapExit →
          (noteAll s i rs).trapCodeOffsets r.trap = r.begin_) ∧
        (∀ r ∈ rs, r.kind = CodeRangeKind.DebugTrap →
          (noteAll s i rs).debugTrapCodeOffset = r.begin_) ∧
        (∀ r ∈ rs, r.kind = CodeRangeKind.OutOfBoundsExit →
          (noteAll s i rs).outOfBoundsOffset = r.begin_) ∧
        (∀ r ∈ rs, r.kind = CodeRangeKind.UnalignedExit →
          (noteAll s i rs).unalignedAccessOffset = r.begin_) ∧
        (∀ r ∈ rs, r.kind = CodeRangeKind.Interrupt →
          (noteAll s i rs).interruptOffset = r.begin_)) := by
  induction rs with
  | nil =>
    intro s i _ _ _ _ _ _ _ _ _ _ _ _ _
    exact ⟨rfl, by simp, by simp, by simp, by simp, by simp⟩
  | cons r rest ih =>
    intro s i hFn hTr hDb hOob hUn hInt hNo IFn ITr IDb IOob IUn IInt
    rw [List.pairwise_cons] at hFn hTr hDb hOob hUn hInt
    have hok : noteCodeRangeOk s r = true := by
      cases hk : r.kind <;> simp only [noteCodeRangeOk, hk]
      · rcases IFn r.funcIndex with h | h
        · simp only [beq_iff_eq]
          exact h
        · exact absurd ⟨hk, rfl⟩ (h r (List.mem_cons_self _ _))
      · rcases ITr r.trap with h | h
        · simp [h]
        · exact absurd ⟨hk, rfl⟩ (h r (List.mem_cons_self _ _))
      · rcases IDb with h | h
        · simp [h]
        · exact absurd hk (h r (List.mem_cons_self _ _))
      · rcases IOob with h | h
        · simp [h]
        · exact absurd hk (h r (List.mem_cons_self _ _))
      · rcases IUn with h | h
        · simp [h]
        · exact absurd hk (h r (List.mem_cons_self _ _))
      · rcases IInt with h | h
        · simp [h]
        · exact absurd hk (h r (List.mem_cons_self _ _))
      · exact absurd hk (hNo r (List.mem_cons_self _ _)).1
      · exact absurd hk (hNo r (List.mem_cons_self _ _)).2
    have hno' : ∀ r' ∈ rest, r'.kind ≠ CodeRangeKind.FarJumpIsland ∧
        r'.kind ≠ CodeRangeKind.BuiltinThunk :=
      fun r' hr' => hNo r' (List.mem_cons_of_mem _ hr')
    have IFn' : ∀ f, (noteCodeRange s i r).funcToCodeRange.getD f BAD_CODE_RANGE
          = BAD_CODE_RANGE ∨
        ∀ r' ∈ rest, ¬(r'.kind = CodeRangeKind.Function ∧ r'.funcIndex = f) := by
      intro f
      by_cases hk : r.kind = CodeRangeKind.Function
      · by_cases hf : f = r.funcIndex
        · subst hf
          exact Or.inr (fun r' hr' h' => hFn.1 r' hr' ⟨hk, h'.1, h'.2.symm⟩)
        · rw [noteCodeRange_function_val s i r hk, getD_set_ne hf]
          rcases IFn f with h | h
          · exact Or.inl h
          · exact Or.inr (fun r' hr' => h r' (List.mem_cons_of_mem _ hr'))
      · rw [noteCodeRange_funcToCodeRange_of_ne s i r hk]
        rcases IFn f with h | h
        · exact Or.inl h
        · exact Or.inr (fun r' hr' => h r' (List.mem_cons_of_mem _ hr'))
    have ITr' : ∀ t, (noteCodeRange s i r).trapCodeOffsets t = 0 ∨
        ∀ r' ∈ rest, ¬(r'.kind = CodeRangeKind.TrapExit ∧ r'.trap = t) := by
      intro t
      by_cases hk : r.kind = CodeRangeKind.TrapExit
      · by_cases ht : t = r.trap
        · subst ht
          exact Or.inr (fun r' hr' h' => hTr.1 r' hr' ⟨hk, h'.1, h'.2.symm⟩)
        · rw [noteCodeRange_trapExit_val s i r hk, if_neg ht]
          rcases ITr t with h | h
          · exact Or.inl h
          · exact Or.inr (fun r' hr' => h r' (List.mem_cons_of_mem _ hr'))
      · rw [noteCodeRange_trapCodeOffsets_of_ne s i r hk]
        rcases ITr t with h | h
        · exact Or.inl h
        · exact Or.inr (fun r' hr' => h r' (List.mem_cons_of_mem _ hr'))
    have IDb' : (noteCodeRange s i r).debugTrapCodeOffset = 0 ∨
        ∀ r' ∈ rest, r'.kind ≠ CodeRangeKind.DebugTrap := by
      by_cases hk : r.kind = CodeRangeKind.DebugTrap
      · exact Or.inr (fun r' hr' hk' => hDb.1 r' hr' ⟨hk, hk'⟩)
      · rw [noteCodeRange_debugTrapCodeOffset_of_ne s i r hk]
        rcases IDb with h | h
        · exact Or.inl h
        · exact Or.inr (fun r' hr' => h r' (List.mem_cons_of_mem _ hr'))
    have IOob' : (noteCodeRange s i r).outOfBoundsOffset = 0 ∨
        ∀ r' ∈ rest, r'.kind ≠ CodeRangeKind.OutOfBoundsExit := by
      by_cases hk : r.kind = CodeRangeKind.OutOfBoundsExit
      · exact Or.inr (fun r' hr' hk' => hOob.1 r' hr' ⟨hk, hk'⟩)
      · rw [noteCodeRange_outOfBoundsOffset_of_ne s i r hk]
        rcases IOob with h | h
        · exact Or.inl h
        · exact Or.inr (fun r' hr' => h r' (List.mem_cons_of_mem _ hr'))
    have IUn' : (noteCodeRange s i r).unalignedAccessOffset = 0 ∨
        ∀ r' ∈ rest, r'.kind ≠ CodeRangeKind.UnalignedExit := by
      by_cases hk : r.kind = CodeRangeKind.UnalignedExit
      · exact Or.inr (fun r' hr' hk' => hUn.1 r' hr' ⟨hk, hk'⟩)
      · rw [noteCodeRange_unalignedAccessOffset_of_ne s i r hk]
        rcases IUn with h | h
        · exact Or.inl h
        · exact Or.inr (fun r' hr' => h r' (List.mem_cons_of_mem _ hr'))
    have IInt' : (noteCodeRange s i r).interruptOffset = 0 ∨
        ∀ r' ∈ rest, r'.kind ≠ CodeRangeKind.Interrupt := by
      by_cases hk : r.kind = CodeRangeKind.Interrupt
      · exact Or.inr (fun r' hr' hk' => hInt.1 r' hr' ⟨hk, hk'⟩)
      · rw [noteCodeRange_interruptOffset_of_ne s i r hk]
        rcases IInt with h | h
        · exact Or.inl h
        · exact Or.inr (fun r' hr' => h r' (List.mem_cons_of_mem _ hr'))
    obtain ⟨hok', hv1, hv2, hv3, hv4, hv5⟩ :=
      ih (noteCodeRange s i r) (i + 1) hFn.2 hTr.2 hDb.2 hOob.2 hUn.2 hInt.2
        hno' IFn' ITr' IDb' IOob' IUn' IInt'
    refine ⟨?_, ?_, ?_, ?_, ?_, ?_⟩
    · simp only [noteAllOk, hok, hok', Bool.and_self]
    · intro r' hr' hk'
      rcases List.mem_cons.mp hr' with rfl | hr'
      · simp only [noteAll]
        rw [noteAll_trapCodeOffsets_frame r'.trap rest _ _
            (fun r'' hr'' h'' => hTr.1 r'' hr'' ⟨hk', h''.1, h''.2.symm⟩),
          noteCodeRange_trapExit_val s i r' hk', if_pos rfl]
      · exact hv1 r' hr' hk'
    · intro r' hr' hk'
      rcases List.mem_cons.mp hr' with rfl | hr'
      · simp only [noteAll]
        rw [noteAll_debugTrapCodeOffset_frame rest _ _
            (fun r'' hr'' hk'' => hDb.1 r'' hr'' ⟨hk', hk''⟩),
          noteCodeRange_debugTrap_val s i r' hk']
      · exact hv2 r' hr' hk'
    · intro r' hr' hk'
      rcases List.mem_cons.mp hr' with rfl | hr'
      · simp only [noteAll]
        rw [noteAll_outOfBoundsOffset_frame rest _ _
            (fun r'' hr'' hk'' => hOob.1 r'' hr'' ⟨hk', hk''⟩),
          noteCodeRange_outOfBounds_val s i r' hk']
      · exact hv3 r' hr' hk'
    · intro r' hr' hk'
      rcases List.mem_cons.mp hr' with rfl | hr'
      · simp only [noteAll]
        rw [noteAll_unalignedAccessOffset_frame rest _ _
            (fun r'' hr'' hk'' => hUn.1 r'' hr'' ⟨hk', hk''⟩),
          noteCodeRange_unaligned_val s i r' hk']
      · exact hv4 r' hr' hk'
    · intro r' hr' hk'
      rcases List.mem_cons.mp hr' with rfl | hr'
      · simp only [noteAll]
        rw [noteAll_interruptOffset_frame rest _ _
            (fun r'' hr'' hk'' => hInt.1 r'' hr'' ⟨hk', hk''⟩),
          noteCodeRange_interrupt_val s i r' hk']
      · exact hv5 r' hr' hk'

/-- C8: over a run of the lifecycle starting with all once-assigned offsets
unset, if the noted code ranges contain at most one `TrapExit` per trap, at
most one `Function` per function index, at most one range of each of the
`DebugTrap`, `OutOfBoundsExit`, `UnalignedExit` and `Interrupt` kinds, and
no `FarJumpIsland`/`BuiltinThunk` (which tasks never produce), then no
`noteCodeRange` assertion fires and each of `trapCodeOffsets[t]` (for every
trap that occurs), `debugTrapCodeOffset`, `outOfBoundsOffset`,
`unalignedAccessOffset` and `interruptOffset` is assigned exactly once, by
`noteCodeRange` from the matching `CodeRange`'s `begin`. -/
theorem noteCodeRange_sentinels_assigned_once (s0 : GenState) (i0 : Nat)
    (rs : List CodeRange)
    (hTr0 : ∀ t, s0.trapCodeOffsets t = 0)
    (hDb0 : s0.debugTrapCodeOffset = 0)
    (hOob0 : s0.outOfBoundsOffset = 0)
    (hUn0 : s0.unalignedAccessOffset = 0)
    (hInt0 : s0.interruptOffset = 0)
    (hFn0 : ∀ f, s0.funcToCodeRange.getD f BAD_CODE_RANGE = BAD_CODE_RANGE)
    (hFn : rs.Pairwise (fun a b => ¬(a.kind = CodeRangeKind.Function ∧
      b.kind = CodeRangeKind.Function ∧ a.funcIndex = b.funcIndex)))
    (hTr : rs.Pairwise (fun a b => ¬(a.kind = CodeRangeKind.TrapExit ∧
      b.kind = CodeRangeKind.TrapExit ∧ a.trap = b.trap)))
    (hDb : rs.Pairwise (fun a b => ¬(a.kind = CodeRangeKind.DebugTrap ∧
      b.kind = CodeRangeKind.DebugTrap)))
    (hOob : rs.Pairwise (fun a b => ¬(a.kind = CodeRangeKind.OutOfBoundsExit ∧
      b.kind = CodeRangeKind.OutOfBoundsExit)))
    (hUn : rs.Pairwise (fun a b => ¬(a.kind = CodeRangeKind.UnalignedExit ∧
      b.kind = CodeRangeKind.UnalignedExit)))
    (hInt : rs.Pairwise (fun a b => ¬(a.kind = CodeRangeKind.Interrupt ∧
      b.kind = CodeRangeKind.Interrupt)))
    (hNo : ∀ r ∈ rs, r.kind ≠ CodeRangeKind.FarJumpIsland ∧
      r.kind ≠ CodeRangeKind.BuiltinThunk) :
    noteAllOk s0 i0 rs = true ∧
    (∀ r ∈ rs, r.kind = CodeRangeKind.TrapExit →
      (noteAll s0 i0 rs).trapCodeOffsets r.trap = r.begin_) ∧
    (∀ r ∈ rs, r.kind = CodeRangeKind.DebugTrap →
      (noteAll s0 i0 rs).debugTrapCodeOffset = r.begin_) ∧
    (∀ r ∈ rs, r.kind = CodeRangeKind.OutOfBoundsExit →
      (noteAll s0 i0 rs).outOfBoundsOffset = r.begin_) ∧
    (∀ r ∈ rs, r.kind = CodeRangeKind.UnalignedExit →
      (noteAll s0 i0 rs).unalignedAccessOffset = r.begin_) ∧
    (∀ r ∈ rs, r.kind = CodeRangeKind.Interrupt →
      (noteAll s0 i0 rs).interruptOffset = r.begin_) :=
  noteAll_spec rs s0 i0 hFn hTr hDb hOob hUn hInt hNo
    (fun f => Or.inl (hFn0 f)) (fun t => Or.inl (hTr0 t))
    (Or.inl hDb0) (Or.inl hOob0) (Or.inl hUn0) (Or.inl hInt0)

theorem noteCodeRange_sentinels_assigned_once_witness :
    noteAllOk emptyGen 5 c8Ranges = true ∧
      (noteAll emptyGen 5 c8Ranges).trapCodeOffsets 2 = 4 :=
  have h := noteCodeRange_sentinels_assigned_once emptyGen 5 c8Ranges
    (fun _ => rfl) rfl rfl rfl rfl (fun _ => rfl)
    (by decide) (by decide) (by decide) (by decide) (by decide) (by decide) (by decide)
  ⟨h.1, h.2.1 { kind := .TrapExit, begin_ := 4, end_ := 8, funcIndex := 0, trap := 2 }
    (by decide) rfl⟩

/-! The standing invariant (sortedness plus in-buffer bounds) and its
preservation by the linker and the call-site patcher. -/

theorem geninv_ext {g g' : GenState} (hcr : g'.codeRanges = g.codeRanges)
    (hcs : g'.callSites = g.callSites) (hm : g.msize ≤ g'.msize)
    (h : GenInv g) : GenInv g' := by
  obtain ⟨hsr, hss, hrb, hsb⟩ := h
  refine ⟨hcr ▸ hsr, hcs ▸ hss, ?_, ?_⟩
  · intro r hr
    rw [hcr] at hr
    exact Nat.le_trans (hrb r hr) hm
  · intro c hc
    rw [hcs] at hc
    exact Nat.le_trans (hsb c hc) hm

theorem geninv_island {g g' : GenState} (b e : Nat) (h : GenInv g)
    (hcr : g'.codeRanges = g.codeRanges ++ [mkIslandRange b e])
    (hcs : g'.callSites = g.callSites)
    (hb : g.msize ≤ b) (hbm : b ≤ g'.msize) (hm : g.msize ≤ g'.msize) : GenInv g' := by
  obtain ⟨hsr, hss, hrb, hsb⟩ := h
  refine ⟨?_, hcs ▸ hss, ?_, ?_⟩
  · unfold sortedRanges at hsr ⊢
    rw [hcr, List.pairwise_append]
    refine ⟨hsr, List.pairwise_singleton _ _, ?_⟩
    intro a ha x hx
    rw [List.mem_singleton] at hx
    subst hx
    exact Nat.le_trans (hrb a ha) hb
  · intro r hr
    rw [hcr] at hr
    rcases List.mem_append.mp hr with hr | hr
    · exact Nat.le_trans (hrb r hr) hm
    · rw [List.mem_singleton] at hr
      subst hr
      exact hbm
  · intro c hc
    rw [hcs] at hc
    exact Nat.le_trans (hsb c hc) hm

theorem linkCompiledCode_inv (cfg : Config) (s : GenState) (code : CompiledCode)
    (hInv : GenInv s)
    (hcrs : sortedRanges code.codeRanges) (hcss : sortedSites code.callSites)
    (hcrb : ∀ r ∈ code.codeRanges, r.begin_ ≤ code.bytesLength)
    (hcsb : ∀ c ∈ code.callSites, c.returnAddressOffset ≤ code.bytesLength) :
    GenInv (linkCompiledCode cfg s code) := by
  obtain ⟨hsr, hss, hrb, hsb⟩ := hInv
  have halign := le_alignUp s.msize cfg.codeAlignment
  have hcr : (linkCompiledCode cfg s code).codeRanges =
      s.codeRanges ++ code.codeRanges.map
        (CodeRange.offsetBy (alignUp s.msize cfg.codeAlignment)) := by
    unfold linkCompiledCode
    dsimp only
    rw [linkCodeRanges_codeRanges]
  have hcs : (linkCompiledCode cfg s code).callSites =
      s.callSites ++ code.callSites.map
        (CallSite.offsetBy (alignUp s.msize cfg.codeAlignment)) := by
    unfold linkCompiledCode
    dsimp only
    rw [(linkCodeRanges_frame _ _ _).2.1]
  have hm : (linkCompiledCode cfg s code).msize =
      alignUp s.msize cfg.codeAlignment + code.bytesLength := by
    unfold linkCompiledCode
    dsimp only
    exact (linkCodeRanges_frame _ _ _).1
  refine ⟨?_, ?_, ?_, ?_⟩
  · unfold sortedRanges at hsr hcrs ⊢
    rw [hcr, List.pairwise_append]
    refine ⟨hsr, ?_, ?_⟩
    · rw [List.pairwise_map]
      exact hcrs.imp fun h => Nat.add_le_add_right h _
    · intro a ha x hx
      obtain ⟨y, hy, rfl⟩ := List.mem_map.mp hx
      have h1 := hrb a ha
      simp only [CodeRange.offsetBy]
      omega
  · unfold sortedSites at hss hcss ⊢
    rw [hcs, List.pairwise_append]
    refine ⟨hss, ?_, ?_⟩
    · rw [List.pairwise_map]
      exact hcss.imp fun h => Nat.add_le_add_right h _
    · intro a ha x hx
      obtain ⟨y, hy, rfl⟩ := List.mem_map.mp hx
      have h1 := hsb a ha
      simp only [CallSite.offsetBy]
      omega
  · intro r hr
    rw [hcr] at hr
    rw [hm]
    rcases List.mem_append.mp hr with hr | hr
    · have := hrb r hr
      omega
    · obtain ⟨y, hy, rfl⟩ := List.mem_map.mp hr
      have := hcrb y hy
      simp only [CodeRange.offsetBy]
      omega
  · intro c hc
    rw [hcs] at hc
    rw [hm]
    rcases List.mem_append.mp hc with hc | hc
    · have := hsb c hc
      omega
    · obtain ⟨y, hy, rfl⟩ := List.mem_map.mp hc
      have := hcsb y hy
      simp only [CallSite.offsetBy]
      omega

theorem linkOneCallSite_inv (cfg : Config) (ps : PassState) (cs : CallSite)
    (tgt : CallSiteTarget) (h : GenInv ps.g) :
    GenInv (linkOneCallSite cfg ps cs tgt).g := by
  cases hk : cs.kind <;> simp only [linkOneCallSite, hk]
  · -- Func
    split
    · exact geninv_ext rfl rfl (Nat.le_refl _) h
    · split
      · exact geninv_ext rfl rfl (Nat.le_refl _) h
      · exact geninv_island ps.g.msize (ps.g.msize + cfg.farJumpSize) h rfl rfl
          (Nat.le_refl _) (Nat.le_add_right _ _) (Nat.le_add_right _ _)
  · exact h
  · exact h
  · -- TrapExit
    split
    · exact geninv_ext rfl rfl (Nat.le_refl _) h
    · exact geninv_island ps.g.msize (ps.g.msize + cfg.loadPtrSize + cfg.farJumpSize) h rfl rfl
        (Nat.le_refl _) (by dsimp only [patchCall]; omega) (by dsimp only [patchCall]; omega)
  · -- Breakpoint
    split
    · exact geninv_island ps.g.msize (ps.g.msize + cfg.loadPtrSize + cfg.farJumpSize) h rfl rfl
        (Nat.le_refl _) (by dsimp only [patchCall]; omega) (by dsimp only [patchCall]; omega)
    · exact h
  · -- EnterFrame
    split
    · exact geninv_island ps.g.msize (ps.g.msize + cfg.loadPtrSize + cfg.farJumpSize) h rfl rfl
        (Nat.le_refl _) (by dsimp only [patchCall]; omega) (by dsimp only [patchCall]; omega)
    · exact h
  · -- LeaveFrame
    split
    · exact geninv_island ps.g.msize (ps.g.msize + cfg.loadPtrSize + cfg.farJumpSize) h rfl rfl
        (Nat.le_refl _) (by dsimp only [patchCall]; omega) (by dsimp only [patchCall]; omega)
    · exact h

theorem linkCallSites_fold_inv (cfg : Config) (w : List (CallSite × CallSiteTarget)) :
    ∀ ps : PassState, GenInv ps.g →
      GenInv ((w.foldl (fun ps p => linkOneCallSite cfg ps p.1 p.2) ps).g) := by
  induction w with
  | nil => intro ps h; exact h
  | cons p rest ih =>
    intro ps h
    exact ih _ (linkOneCallSite_inv cfg ps p.1 p.2 h)

theorem linkCallSites_inv (cfg : Config) (s : GenState) (h : GenInv s) :
    GenInv (linkCallSites cfg s) := by
  unfold linkCallSites
  dsimp only
  have h0 : GenInv { s with msize := alignUp s.msize cfg.codeAlignment } :=
    @geninv_ext s { s with msize := alignUp s.msize cfg.codeAlignment } rfl rfl
      (le_alignUp s.msize cfg.codeAlignment) h
  exact geninv_ext rfl rfl (Nat.le_refl _) (linkCallSites_fold_inv cfg _ _ h0)

/-- C2: assuming the task's own `codeRanges` are ordered by `begin` and its
`callSites` by `returnAddressOffset` (and lie within the task's bytes),
every `linkCompiledCode` and every `linkCallSites` pass preserves the
standing invariant, so `metadataTier.codeRanges` stays non-decreasing in
`begin` and `metadataTier.callSites` non-decreasing in
`returnAddressOffset`. -/
theorem linkCompiledCode_linkCallSites_preserve_sorted (cfg : Config) (s : GenState)
    (code : CompiledCode) (hInv : GenInv s)
    (hcrs : sortedRanges code.codeRanges) (hcss : sortedSites code.callSites)
    (hcrb : ∀ r ∈ code.codeRanges, r.begin_ ≤ code.bytesLength)
    (hcsb : ∀ c ∈ code.callSites, c.returnAddressOffset ≤ code.bytesLength) :
    GenInv (linkCompiledCode cfg s code) ∧ GenInv (linkCallSites cfg s) :=
  ⟨linkCompiledCode_inv cfg s code hInv hcrs hcss hcrb hcsb,
   linkCallSites_inv cfg s hInv⟩

theorem linkCompiledCode_linkCallSites_preserve_sorted_witness :
    GenInv (linkCompiledCode cfgW sW2 codeW2) ∧ GenInv (linkCallSites cfgW sW2) :=
  linkCompiledCode_linkCallSites_preserve_sorted cfgW sW2 codeW2
    (by simp only [GenInv, sortedRanges, sortedSites]; decide)
    (by simp only [sortedRanges]; decide)
    (by simp only [sortedSites]; decide)
    (by decide) (by decide)

/-! Per-pass island deduplication (C4). -/

theorem linkOne_cfj_cnt (cfg : Config) (ps : PassState) (cs : CallSite)
    (tgt : CallSiteTarget) (f : Nat) :
    ((linkOneCallSite cfg ps cs tgt).g.callFarJumps.filter
        (fun c => c.funcIndex == f)).length +
      (if ((linkOneCallSite cfg ps cs tgt).existingCallFarJumps.lookup f).isSome
        then 0 else 1) ≤
    (ps.g.callFarJumps.filter (fun c => c.funcIndex == f)).length +
      (if (ps.existingCallFarJumps.lookup f).isSome then 0 else 1) := by
  cases hk : cs.kind <;> simp only [linkOneCallSite, hk]
  · split
    · exact Nat.le_refl _
    · split
      · exact Nat.le_refl _
      · rename_i hnone
        dsimp only [patchCall]
        by_cases hf : f = tgt.index
        · subst hf
          have h1 : ((tgt.index, ps.g.msize) :: ps.existingCallFarJumps).lookup tgt.index
              = some ps.g.msize := by
            rw [List.lookup, beq_self_eq_true]
          have h2 : (List.filter (fun c => c.funcIndex == tgt.index)
              [CallFarJump.mk tgt.index ps.g.msize]).length = 1 := by
            simp [List.filter]
          rw [List.filter_append, List.length_append, h1, hnone, h2]
          simp
        · have h1 : ((tgt.index, ps.g.msize) :: ps.existingCallFarJumps).lookup f
              = ps.existingCallFarJumps.lookup f := by
            rw [List.lookup, beq_eq_false_iff_ne.mpr hf]
          have h2 : (List.filter (fun c => c.funcIndex == f)
              [CallFarJump.mk tgt.index ps.g.msize]).length = 0 := by
            simp [List.filter, beq_eq_false_iff_ne.mpr (fun h => hf h.symm)]
          rw [List.filter_append, List.length_append, h1, h2]
          omega
  · exact Nat.le_refl _
  · exact Nat.le_refl _
  · split
    · exact Nat.le_refl _
    · exact Nat.le_refl _
  · split
    · exact Nat.le_refl _
    · exact Nat.le_refl _
  · split
    · exact Nat.le_refl _
    · exact Nat.le_refl _
  · split
    · exact Nat.le_refl _
    · exact Nat.le_refl _

theorem linkOne_tfj_cnt (cfg : Config) (ps : PassState) (cs : CallSite)
    (tgt : CallSiteTarget) (t : Nat) :
    ((linkOneCallSite cfg ps cs tgt).g.trapFarJumps.filter
        (fun c => c.trap == t)).length +
      (if ((linkOneCallSite cfg ps cs tgt).existingTrapFarJumps.lookup t).isSome
        then 0 else 1) ≤
    (ps.g.trapFarJumps.filter (fun c => c.trap == t)).length +
      (if (ps.existingTrapFarJumps.lookup t).isSome then 0 else 1) := by
  cases hk : cs.kind <;> simp only [linkOneCallSite, hk]
  · split
    · exact Nat.le_refl _
    · split
      · exact Nat.le_refl _
      · exact Nat.le_refl _
  · exact Nat.le_refl _
  · exact Nat.le_refl _
  · split
    · exact Nat.le_refl _
    · rename_i hnone
      dsimp only [patchCall]
      by_cases hf : t = tgt.index
      · subst hf
        have h1 : ((tgt.index, ps.g.msize) :: ps.existingTrapFarJumps).lookup tgt.index
            = some ps.g.msize := by
          rw [List.lookup, beq_self_eq_true]
        have h2 : (List.filter (fun c => c.trap == tgt.index)
            [TrapFarJump.mk tgt.index (ps.g.msize + cfg.loadPtrSize)]).length = 1 := by
          simp [List.filter]
        rw [List.filter_append, List.length_append, h1, hnone, h2]
        simp
      · have h1 : ((tgt.index, ps.g.msize) :: ps.existingTrapFarJumps).lookup t
            = ps.existingTrapFarJumps.lookup t := by
          rw [List.lookup, beq_eq_false_iff_ne.mpr hf]
        have h2 : (List.filter (fun c => c.trap == t)
            [TrapFarJump.mk tgt.index (ps.g.msize + cfg.loadPtrSize)]).length = 0 := by
          simp [List.filter, beq_eq_false_iff_ne.mpr (fun h => hf h.symm)]
        rw [List.filter_append, List.length_append, h1, h2]
        omega
  · split
    · exact Nat.le_refl _
    · exact Nat.le_refl _
  · split
    · exact Nat.le_refl _
    · exact Nat.le_refl _
  · split
    · exact Nat.le_refl _
    · exact Nat.le_refl _

theorem fold_cfj_cnt (cfg : Config) (f : Nat) (w : List (CallSite × CallSiteTarget)) :
    ∀ ps : PassState,
      (((w.foldl (fun ps p => linkOneCallSite cfg ps p.1 p.2) ps).g.callFarJumps.filter
          (fun c => c.funcIndex == f)).length +
        (if (((w.foldl (fun ps p => linkOneCallSite cfg ps p.1 p.2) ps)).existingCallFarJumps.lookup f).isSome
          then 0 else 1)) ≤
      ((ps.g.callFarJumps.filter (fun c => c.funcIndex == f)).length +
        (if (ps.existingCallFarJumps.lookup f).isSome then 0 else 1)) := by
  induction w with
  | nil => intro ps; exact Nat.le_refl _
  | cons p rest ih =>
    intro ps
    exact Nat.le_trans (ih (linkOneCallSite cfg ps p.1 p.2))
      (linkOne_cfj_cnt cfg ps p.1 p.2 f)

theorem fold_tfj_cnt (cfg : Config) (t : Nat) (w : List (CallSite × CallSiteTarget)) :
    ∀ ps : PassState,
      (((w.foldl (fun ps p => linkOneCallSite cfg ps p.1 p.2) ps).g.trapFarJumps.filter
          (fun c => c.trap == t)).length +
        (if (((w.foldl (fun ps p => linkOneCallSite cfg ps p.1 p.2) ps)).existingTrapFarJumps.lookup t).isSome
          then 0 else 1)) ≤
      ((ps.g.trapFarJumps.filter (fun c => c.trap == t)).length +
        (if (ps.existingTrapFarJumps.lookup t).isSome then 0 else 1)) := by
  induction w with
  | nil => intro ps; exact Nat.le_refl _
  | cons p rest ih =>
    intro ps
    exact Nat.le_trans (ih (linkOneCallSite cfg ps p.1 p.2))
      (linkOne_tfj_cnt cfg ps p.1 p.2 t)

/-- C4: a single `linkCallSites` pass emits at most one call far-jump
island per callee function index and at most one trap far-jump island per
trap variant: the pass adds at most one `callFarJumps_` record for any
function index `f` and at most one `trapFarJumps_` record for any trap
`t` (further out-of-range call sites reuse the pass-local cache entry).
A later pass starts a fresh cache and may emit its own island again. -/
theorem linkCallSites_island_dedup_per_pass (cfg : Config) (s : GenState) (f t : Nat) :
    ((linkCallSites cfg s).callFarJumps.filter (fun c => c.funcIndex == f)).length ≤
      (s.callFarJumps.filter (fun c => c.funcIndex == f)).length + 1 ∧
    ((linkCallSites cfg s).trapFarJumps.filter (fun c => c.trap == t)).length ≤
      (s.trapFarJumps.filter (fun c => c.trap == t)).length + 1 := by
  constructor
  · have h := fold_cfj_cnt cfg f
      (((s.callSites.zip s.callSiteTargets).drop s.lastPatchedCallSite))
      ⟨{ s with msize := alignUp s.msize cfg.codeAlignment }, [], []⟩
    simp only [List.lookup] at h
    simp only [Option.isSome_none, Bool.false_eq_true, if_false] at h
    exact Nat.le_trans (Nat.le_add_right _ _) h
  · have h := fold_tfj_cnt cfg t
      (((s.callSites.zip s.callSiteTargets).drop s.lastPatchedCallSite))
      ⟨{ s with msize := alignUp s.msize cfg.codeAlignment }, [], []⟩
    simp only [List.lookup] at h
    simp only [Option.isSome_none, Bool.false_eq_true, if_false] at h
    exact Nat.le_trans (Nat.le_add_right _ _) h

/-! Growth of the generator state along a pass (used for C3). -/

theorem GenLE.refl (g : GenState) : GenLE g g :=
  ⟨fun _ hp => hp, ⟨[], by simp⟩, fun _ hc => hc, Nat.le_refl _, rfl⟩

theorem GenLE.trans {a b c : GenState} (h1 : GenLE a b) (h2 : GenLE b c) : GenLE a c := by
  obtain ⟨p1, ⟨t1, e1⟩, c1, m1, f1⟩ := h1
  obtain ⟨p2, ⟨t2, e2⟩, c2, m2, f2⟩ := h2
  exact ⟨fun p hp => p2 p (p1 p hp), ⟨t1 ++ t2, by rw [e2, e1, List.append_assoc]⟩,
    fun x hx => c2 x (c1 x hx), Nat.le_trans m1 m2, f2.trans f1⟩

theorem islandAt_mono {a b : GenState} (hle : GenLE a b) {e : Nat}
    (h : islandAt a e) : islandAt b e := by
  obtain ⟨r, hr, h1, h2⟩ := h
  obtain ⟨t, hcr⟩ := hle.2.1
  exact ⟨r, hcr ▸ List.mem_append_left t hr, h1, h2⟩

theorem cfjAt_mono {a b : GenState} (hle : GenLE a b) {f e : Nat}
    (h : cfjAt a f e) : cfjAt b f e := by
  obtain ⟨c, hc, h1, h2⟩ := h
  exact ⟨c, hle.2.2.1 c hc, h1, h2⟩

theorem linkOne_le (cfg : Config) (ps : PassState) (cs : CallSite)
    (tgt : CallSiteTarget) : GenLE ps.g (linkOneCallSite cfg ps cs tgt).g := by
  cases hk : cs.kind <;> simp only [linkOneCallSite, hk]
  · split
    · dsimp only [patchCall]
      exact ⟨fun p hp => List.mem_append_left _ hp, ⟨[], by simp⟩, fun c hc => hc,
        Nat.le_refl _, rfl⟩
    · split
      · dsimp only [patchCall]
        exact ⟨fun p hp => List.mem_append_left _ hp, ⟨[], by simp⟩, fun c hc => hc,
          Nat.le_refl _, rfl⟩
      · dsimp only [patchCall]
        exact ⟨fun p hp => List.mem_append_left _ hp, ⟨_, rfl⟩,
          fun c hc => List.mem_append_left _ hc, Nat.le_add_right _ _, rfl⟩
  · exact GenLE.refl _
  · exact GenLE.refl _
  · split
    · dsimp only [patchCall]
      exact ⟨fun p hp => List.mem_append_left _ hp, ⟨[], by simp⟩, fun c hc => hc,
        Nat.le_refl _, rfl⟩
    · dsimp only [patchCall]
      exact ⟨fun p hp => List.mem_append_left _ hp, ⟨_, rfl⟩, fun c hc => hc,
        Nat.le_trans (Nat.le_add_right _ _) (Nat.le_add_right _ _), rfl⟩
  · split
    · exact ⟨fun p hp => hp, ⟨_, rfl⟩, fun c hc => hc,
        Nat.le_trans (Nat.le_add_right _ _) (Nat.le_add_right _ _), rfl⟩
    · exact GenLE.refl _
  · split
    · exact ⟨fun p hp => hp, ⟨_, rfl⟩, fun c hc => hc,
        Nat.le_trans (Nat.le_add_right _ _) (Nat.le_add_right _ _), rfl⟩
    · exact GenLE.refl _
  · split
    · exact ⟨fun p hp => hp, ⟨_, rfl⟩, fun c hc => hc,
        Nat.le_trans (Nat.le_add_right _ _) (Nat.le_add_right _ _), rfl⟩
    · exact GenLE.refl _

theorem fold_le (cfg : Config) (w : List (CallSite × CallSiteTarget)) :
    ∀ ps : PassState,
      GenLE ps.g ((w.foldl (fun ps p => linkOneCallSite cfg ps p.1 p.2) ps).g) := by
  induction w with
  | nil => intro ps; exact GenLE.refl _
  | cons p rest ih =>
    intro ps
    exact GenLE.trans (linkOne_le cfg ps p.1 p.2) (ih (linkOneCallSite cfg ps p.1 p.2))

theorem getD_append_left {α : Type _} (l t : List α) (i : Nat) (d : α)
    (h : i < l.length) : (l ++ t).getD i d = l.getD i d := by
  rw [List.getD_eq_getElem?_getD, List.getD_eq_getElem?_getD, List.getElem?_append,
    if_pos h]

theorem funcCodeRange_stable {a b : GenState} (hle : GenLE a b) (f : Nat)
    (hidx : a.funcToCodeRange.getD f BAD_CODE_RANGE < a.codeRanges.length) :
    funcCodeRange b f = funcCodeRange a f ∧
    funcIsCompiled b f = funcIsCompiled a f ∧
    b.funcToCodeRange.getD f BAD_CODE_RANGE < b.codeRanges.length := by
  obtain ⟨-, ⟨t, hcr⟩, -, -, hfn⟩ := hle
  refine ⟨?_, ?_, ?_⟩
  · unfold funcCodeRange
    rw [hfn, hcr, getD_append_left _ _ _ _ hidx]
  · unfold funcIsCompiled
    rw [hfn]
  · rw [hfn, hcr, List.length_append]
    omega

theorem mem_of_lookup {l : List (Nat × Nat)} {k v : Nat}
    (h : l.lookup k = some v) : (k, v) ∈ l := by
  induction l with
  | nil => simp [List.lookup] at h
  | cons p rest ih =>
    obtain ⟨a, b⟩ := p
    rw [List.lookup] at h
    by_cases hk : k = a
    · subst hk
      rw [beq_self_eq_true] at h
      cases h
      exact List.mem_cons_self _ _
    · rw [beq_eq_false_iff_ne.mpr hk] at h
      exact List.mem_cons_of_mem _ (ih h)

theorem linkOne_existing (cfg : Config) (ps : PassState) (cs : CallSite)
    (tgt : CallSiteTarget) :
    (linkOneCallSite cfg ps cs tgt).existingCallFarJumps = ps.existingCallFarJumps ∨
    ((linkOneCallSite cfg ps cs tgt).existingCallFarJumps =
        (tgt.index, ps.g.msize) :: ps.existingCallFarJumps ∧
      islandAt (linkOneCallSite cfg ps cs tgt).g ps.g.msize ∧
      cfjAt (linkOneCallSite cfg ps cs tgt).g tgt.index ps.g.msize ∧
      ps.g.msize ≤ (linkOneCallSite cfg ps cs tgt).g.msize) := by
  cases hk : cs.kind <;> simp only [linkOneCallSite, hk]
  · split
    · first | exact Or.inl rfl | exact Or.inl trivial
    · split
      · first | exact Or.inl rfl | exact Or.inl trivial
      · refine Or.inr ⟨rfl, ?_, ?_, ?_⟩
        · exact ⟨mkIslandRange ps.g.msize (ps.g.msize + cfg.farJumpSize),
            by dsimp only [patchCall]; simp, rfl, rfl⟩
        · exact ⟨CallFarJump.mk tgt.index ps.g.msize,
            by dsimp only [patchCall]; simp, rfl, rfl⟩
        · dsimp only [patchCall]
          omega
  · first | exact Or.inl rfl | exact Or.inl trivial
  · first | exact Or.inl rfl | exact Or.inl trivial
  · split
    · first | exact Or.inl rfl | exact Or.inl trivial
    · first | exact Or.inl rfl | exact Or.inl trivial
  · split
    · first | exact Or.inl rfl | exact Or.inl trivial
    · first | exact Or.inl rfl | exact Or.inl trivial
  · split
    · first | exact Or.inl rfl | exact Or.inl trivial
    · first | exact Or.inl rfl | exact Or.inl trivial
  · split
    · first | exact Or.inl rfl | exact Or.inl trivial
    · first | exact Or.inl rfl | exact Or.inl trivial

theorem linkOne_mapInv (cfg : Config) (ps : PassState) (cs : CallSite)
    (tgt : CallSiteTarget) (m0 : Nat) (h : MapInv m0 ps) :
    MapInv m0 (linkOneCallSite cfg ps cs tgt) := by
  obtain ⟨hm0, hmap⟩ := h
  have hle := linkOne_le cfg ps cs tgt
  have hpersist : ∀ p ∈ ps.existingCallFarJumps,
      islandAt (linkOneCallSite cfg ps cs tgt).g p.2 ∧
      cfjAt (linkOneCallSite cfg ps cs tgt).g p.1 p.2 ∧
      m0 ≤ p.2 ∧ p.2 ≤ (linkOneCallSite cfg ps cs tgt).g.msize := by
    intro p hp
    obtain ⟨hi, hc, h0, hm⟩ := hmap p hp
    exact ⟨islandAt_mono hle hi, cfjAt_mono hle hc, h0, Nat.le_trans hm hle.2.2.2.1⟩
  rcases linkOne_existing cfg ps cs tgt with heq | ⟨heq, hisl, hcfj, hmb⟩
  · exact ⟨Nat.le_trans hm0 hle.2.2.2.1, fun p hp => hpersist p (heq ▸ hp)⟩
  · refine ⟨Nat.le_trans hm0 hle.2.2.2.1, ?_⟩
    intro p hp
    rw [heq] at hp
    rcases List.mem_cons.mp hp with rfl | hp
    · exact ⟨hisl, hcfj, hm0, hmb⟩
    · exact hpersist p hp

/-- The heart of C3: folding the pass over the unpatched call sites, any
`Func` call site whose compiled callee is out of direct range gets patched
to the entry of some recorded `FarJumpIsland` whose pending call far jump
names the callee, with the entry between the pass's starting buffer size
and the final buffer size. -/
theorem fold_far_island (cfg : Config) (f caller m0 E : Nat)
    (w : List (CallSite × CallSiteTarget)) :
    ∀ ps : PassState,
      MapInv m0 ps →
      funcIsCompiled ps.g f = true →
      ps.g.funcToCodeRange.getD f BAD_CODE_RANGE < ps.g.codeRanges.length →
      funcNormalEntry cfg (funcCodeRange ps.g f) = E →
      InRange cfg caller E = false →
      (∃ cs tgt, (cs, tgt) ∈ w ∧ cs.kind = CallSiteKind.Func ∧
        cs.returnAddressOffset = caller ∧ tgt.index = f) →
      ∃ e,
        (caller, e) ∈ ((w.foldl (fun ps p => linkOneCallSite cfg ps p.1 p.2) ps).g).patches ∧
        islandAt ((w.foldl (fun ps p => linkOneCallSite cfg ps p.1 p.2) ps).g) e ∧
        cfjAt ((w.foldl (fun ps p => linkOneCallSite cfg ps p.1 p.2) ps).g) f e ∧
        m0 ≤ e ∧
        e ≤ ((w.foldl (fun ps p => linkOneCallSite cfg ps p.1 p.2) ps).g).msize := by
  induction w with
  | nil =>
    rintro ps - - - - - ⟨cs, tgt, h, -⟩
    exact absurd h (List.not_mem_nil _)
  | cons hd rest ih =>
    rintro ps hmap hcomp hidx hE hfar ⟨cs, tgt, hmem, hkind, hcaller, hf⟩
    rcases List.mem_cons.mp hmem with heq | hmem'
    · obtain ⟨cs0, tgt0⟩ := hd
      injection heq with h1 h2
      subst h1
      subst h2
      simp only [List.foldl_cons]
      have hfle := fold_le cfg rest (linkOneCallSite cfg ps cs tgt)
      have hstep : ∃ e, (caller, e) ∈ (linkOneCallSite cfg ps cs tgt).g.patches ∧
          islandAt (linkOneCallSite cfg ps cs tgt).g e ∧
          cfjAt (linkOneCallSite cfg ps cs tgt).g f e ∧
          m0 ≤ e ∧ e ≤ (linkOneCallSite cfg ps cs tgt).g.msize := by
        have hcond : (funcIsCompiled ps.g tgt.index &&
            InRange cfg cs.returnAddressOffset
              (funcNormalEntry cfg (funcCodeRange ps.g tgt.index))) = false := by
          rw [hf, hcaller, hE, hfar, Bool.and_false]
        simp only [linkOneCallSite, hkind, hcond, Bool.false_eq_true, if_false]
        cases hlook : ps.existingCallFarJumps.lookup tgt.index with
        | some entry =>
          obtain ⟨hi, hc, h0, hm⟩ := hmap.2 _ (mem_of_lookup hlook)
          refine ⟨entry, ?_, hi, ?_, h0, hm⟩
          · dsimp only [patchCall]
            rw [hcaller]
            exact List.mem_append_right _ (List.mem_singleton_self _)
          · rw [← hf]
            exact hc
        | none =>
          refine ⟨ps.g.msize, ?_, ?_, ?_, hmap.1, ?_⟩
          · dsimp only [patchCall]
            rw [hcaller]
            exact List.mem_append_right _ (List.mem_singleton_self _)
          · exact ⟨mkIslandRange ps.g.msize (ps.g.msize + cfg.farJumpSize),
              by dsimp only [patchCall]; simp, rfl, rfl⟩
          · refine ⟨CallFarJump.mk tgt.index ps.g.msize,
              by dsimp only [patchCall]; simp, hf, rfl⟩
          · dsimp only [patchCall]
            omega
      obtain ⟨e, hp, hi, hc, h0, hm⟩ := hstep
      exact ⟨e, hfle.1 _ hp, islandAt_mono hfle hi, cfjAt_mono hfle hc, h0,
        Nat.le_trans hm hfle.2.2.2.1⟩
    · simp only [List.foldl_cons]
      have hle := linkOne_le cfg ps hd.1 hd.2
      have hstable := funcCodeRange_stable hle f hidx
      exact ih (linkOneCallSite cfg ps hd.1 hd.2)
        (linkOne_mapInv cfg ps hd.1 hd.2 m0 hmap)
        (hstable.2.1.trans hcomp) hstable.2.2 (by rw [hstable.1]; exact hE) hfar
        ⟨cs, tgt, hmem', hkind, hcaller, hf⟩

/-- C3 (amended): for an unpatched `Func` call site whose compiled callee's
normal entry is out of direct branch range at patch time, `linkCallSites`
patches the caller to the entry of a `FarJumpIsland` code range it emits or
reuses within the pass; the island's pending far jump names the callee and
is patched at `finishLinking` to the callee's normal entry.  The island
entry lies between the pass's starting buffer size and its final size, so
it is in range of the caller whenever the buffer size at the end of the
pass is within `branchRange` of the call site's return-address offset (the
code does not itself enforce that condition; see the counterexample). -/
theorem linkCallSites_far_call_island (cfg : Config) (s : GenState)
    (cs : CallSite) (tgt : CallSiteTarget)
    (hmem : (cs, tgt) ∈ (s.callSites.zip s.callSiteTargets).drop s.lastPatchedCallSite)
    (hkind : cs.kind = CallSiteKind.Func)
    (hcomp : funcIsCompiled s tgt.index = true)
    (hidx : s.funcToCodeRange.getD tgt.index BAD_CODE_RANGE < s.codeRanges.length)
    (hcallerB : cs.returnAddressOffset ≤ s.msize)
    (hfar : InRange cfg cs.returnAddressOffset
      (funcNormalEntry cfg (funcCodeRange s tgt.index)) = false) :
    ∃ e,
      (cs.returnAddressOffset, e) ∈ (linkCallSites cfg s).patches ∧
      islandAt (linkCallSites cfg s) e ∧
      cfjAt (linkCallSites cfg s) tgt.index e ∧
      (e, funcNormalEntry cfg (funcCodeRange (linkCallSites cfg s) tgt.index))
        ∈ (finishLinking cfg s).farPatches ∧
      cs.returnAddressOffset ≤ e ∧
      e ≤ (linkCallSites cfg s).msize ∧
      ((linkCallSites cfg s).msize - cs.returnAddressOffset < branchRange cfg →
        InRange cfg cs.returnAddressOffset e = true) := by
  have key := fold_far_island cfg tgt.index cs.returnAddressOffset
    (alignUp s.msize cfg.codeAlignment)
    (funcNormalEntry cfg (funcCodeRange s tgt.index))
    ((s.callSites.zip s.callSiteTargets).drop s.lastPatchedCallSite)
    ⟨{ s with msize := alignUp s.msize cfg.codeAlignment }, [], []⟩
    ⟨Nat.le_refl _, fun p hp => absurd hp (List.not_mem_nil _)⟩
    hcomp hidx rfl hfar ⟨cs, tgt, hmem, hkind, rfl, rfl⟩
  obtain ⟨e, hp0, hi0, hc0, h00, hm0⟩ := key
  have hp : (cs.returnAddressOffset, e) ∈ (linkCallSites cfg s).patches := hp0
  have hi : islandAt (linkCallSites cfg s) e := hi0
  have hc : cfjAt (linkCallSites cfg s) tgt.index e := hc0
  have h0 : alignUp s.msize cfg.codeAlignment ≤ e := h00
  have hm : e ≤ (linkCallSites cfg s).msize := hm0
  have hcle : cs.returnAddressOffset ≤ e := by
    have := le_alignUp s.msize cfg.codeAlignment
    omega
  refine ⟨e, hp, hi, hc, ?_, hcle, hm, ?_⟩
  · obtain ⟨c, hcm, hcf, hcj⟩ := hc
    have hmm : (c.jump, funcNormalEntry cfg
        (funcCodeRange (linkCallSites cfg s) c.funcIndex)) ∈
        (linkCallSites cfg s).callFarJumps.map
          (fun far => (far.jump, funcNormalEntry cfg
            (funcCodeRange (linkCallSites cfg s) far.funcIndex))) :=
      List.mem_map_of_mem _ hcm
    rw [hcf, hcj] at hmm
    exact List.mem_append_left _ (List.mem_append_left _ (List.mem_append_right _ hmm))
  · intro hs
    unfold InRange
    split
    · simp only [decide_eq_true_eq]
      omega
    · simp only [decide_eq_true_eq]
      omega

theorem linkCallSites_far_call_island_witness :
    ∃ e, (46, e) ∈ (linkCallSites cfgW sW3).patches ∧
      InRange cfgW 46 e = true := by
  obtain ⟨e, hp, -, -, -, -, -, hslack⟩ :=
    linkCallSites_far_call_island cfgW sW3
      { returnAddressOffset := 46, kind := .Func } ⟨0⟩
      (by decide) rfl (by decide) (by decide) (by decide) (by decide)
  exact ⟨e, hp, hslack (by decide)⟩

/-- C3 counterexample to the claim as stated: with a small branch range,
the island that `linkCallSites` emits for an out-of-range call and patches
the caller to is itself out of range of that caller: the state `sCE` has a
single unpatched `Func` call site at offset 10 whose compiled callee entry
40 is out of range (`branchRange = 5`); the pass patches the caller to the
island at offset 100, and no recorded patch target or `FarJumpIsland`
is in range of the caller. -/
theorem linkCallSites_island_out_of_range_cex :
    (10, 100) ∈ (linkCallSites cfgCE sCE).patches ∧
    funcIsCompiled sCE 0 = true ∧
    InRange cfgCE 10 (funcNormalEntry cfgCE (funcCodeRange sCE 0)) = false ∧
    (∀ p ∈ (linkCallSites cfgCE sCE).patches, p.1 = 10 → InRange cfgCE 10 p.2 = false) ∧
    (∀ r ∈ (linkCallSites cfgCE sCE).codeRanges,
      r.kind = CodeRangeKind.FarJumpIsland → InRange cfgCE 10 r.begin_ = false) := by
  decide

end WasmGenerator
